import Mathlib

set_option allowUnsafeReducibility true

attribute [local semireducible] Rat.mul Rat.add Rat.sub Rat.inv Rat.ofScientific

/-!
Verification development for the YoloV5/Deepstream output-decoder and
greedy clustering (NMS) code of this repository.

The C++ sources are shallowly embedded over exact rationals:
every 32-bit float value of the program is modelled as a rational number
(so all arithmetic is exact; floating-point rounding and NaN are outside
the model), machine integer casts are modelled explicitly, and the raw
output buffers are modelled as lists of rationals or records mirroring
the struct layout the C++ code reads via pointer arithmetic.
-/

/-- Model of the `bbox[4]` array of `struct Detection`
(`nvdsparsebbox_Yolo.cpp`): center x, center y, width, height. -/
structure Box where
  x : ℚ
  y : ℚ
  w : ℚ
  h : ℚ
deriving DecidableEq, Repr

/-- Model of `struct Detection` of `nvdsparsebbox_Yolo.cpp` (and
`Yolo::Detection` of `common.hpp`): a center-format box, a confidence and a
float-typed class id. -/
structure Detection where
  bbox : Box
  conf : ℚ
  class_id : ℚ
deriving DecidableEq, Repr

/-- Left edge of the intersection box computed by `iou` (`interBox[0]`). -/
def interLeft (lbox rbox : Box) : ℚ :=
  max (lbox.x - lbox.w / 2) (rbox.x - rbox.w / 2)

/-- Right edge of the intersection box computed by `iou` (`interBox[1]`). -/
def interRight (lbox rbox : Box) : ℚ :=
  min (lbox.x + lbox.w / 2) (rbox.x + rbox.w / 2)

/-- Top edge of the intersection box computed by `iou` (`interBox[2]`). -/
def interTop (lbox rbox : Box) : ℚ :=
  max (lbox.y - lbox.h / 2) (rbox.y - rbox.h / 2)

/-- Bottom edge of the intersection box computed by `iou` (`interBox[3]`). -/
def interBottom (lbox rbox : Box) : ℚ :=
  min (lbox.y + lbox.h / 2) (rbox.y + rbox.h / 2)

/-- The intersection area `interBoxS` computed by `iou`. -/
def interBoxS (lbox rbox : Box) : ℚ :=
  (interRight lbox rbox - interLeft lbox rbox) *
    (interBottom lbox rbox - interTop lbox rbox)

/-- Model of `float iou(float lbox[4], float rbox[4])`
(`nvdsparsebbox_Yolo.cpp` lines 89-102, identical in `common.hpp`):
returns 0 when the intersecting spans are inverted, otherwise the
intersection area divided by the union term. -/
def iou (lbox rbox : Box) : ℚ :=
  if interTop lbox rbox > interBottom lbox rbox ∨
      interLeft lbox rbox > interRight lbox rbox then 0
  else
    interBoxS lbox rbox /
      (lbox.w * lbox.h + rbox.w * rbox.h - interBoxS lbox rbox)

/-- The comparison relation of `bool cmp(Detection, Detection)` used by
`std::sort` in `nms`: descending confidence.  `std::sort` is unstable, so
the order among equal confidences is unspecified in C++; the model fixes
the (stable) insertion-sort order, one of the admissible outcomes. -/
def detGE (a b : Detection) : Prop := b.conf ≤ a.conf

instance : DecidableRel detGE := fun a b => inferInstanceAs (Decidable (b.conf ≤ a.conf))

instance : IsTotal Detection detGE := ⟨fun a b => le_total b.conf a.conf⟩

instance : IsTrans Detection detGE := ⟨fun _ _ _ h h2 => le_trans h2 h⟩

/-- The `std::sort(dets.begin(), dets.end(), cmp)` call of `nms`: sort a
class group by descending confidence. -/
def sortDesc (l : List Detection) : List Detection := l.insertionSort detGE

/-- Model of `std::map<float, std::vector<Detection>>` insertion performed by
`m[det.class_id].push_back(det)` in `nms`: the map is an association list
with keys kept in ascending order (the iteration order of `std::map`), and
the detection is appended at the end of its key's vector. -/
def mapInsert (k : ℚ) (d : Detection) :
    List (ℚ × List Detection) → List (ℚ × List Detection)
  | [] => [(k, [d])]
  | (k', v) :: rest =>
    if k = k' then (k', v ++ [d]) :: rest
    else if k < k' then (k, [d]) :: (k', v) :: rest
    else (k', v) :: mapInsert k d rest

/-- The first loop of `nms` (lines 111-117): walk the candidates in order,
skip each one whose confidence is at or below `conf_thresh`, and insert the
rest into the class-keyed map. -/
def nmsFill (conf_thresh : ℚ) :
    List Detection → List (ℚ × List Detection) → List (ℚ × List Detection)
  | [], m => m
  | d :: ds, m =>
    if d.conf ≤ conf_thresh then nmsFill conf_thresh ds m
    else nmsFill conf_thresh ds (mapInsert d.class_id d m)

/-- The inner erase loop of `nms` (lines 125-130): starting after the emitted
`item`, erase every later detection whose IoU with `item` strictly exceeds
`nms_thresh`. -/
def eraseOver (item : Detection) (nms_thresh : ℚ) : List Detection → List Detection
  | [] => []
  | d :: ds =>
    if iou item.bbox d.bbox > nms_thresh then eraseOver item nms_thresh ds
    else d :: eraseOver item nms_thresh ds

theorem eraseOver_eq_filter (item : Detection) (t : ℚ) (l : List Detection) :
    eraseOver item t l = l.filter (fun d => !(decide (iou item.bbox d.bbox > t))) := by
  induction l with
  | nil => rfl
  | cons d ds ih =>
    simp only [eraseOver, List.filter]
    by_cases h : iou item.bbox d.bbox > t <;> simp [h, ih]

theorem eraseOver_length_le (item : Detection) (t : ℚ) (l : List Detection) :
    (eraseOver item t l).length ≤ l.length := by
  rw [eraseOver_eq_filter]; exact List.length_filter_le _ _

/-- Fuel-indexed form of the outer emission loop of `nms`; the fuel only
makes the recursion structural (the list shrinks at every step, so any fuel
at least the list length gives the loop's behaviour). -/
def nmsLoopF (nms_thresh : ℚ) : ℕ → List Detection → List Detection
  | _, [] => []
  | 0, l => l
  | fuel + 1, d :: ds => d :: nmsLoopF nms_thresh fuel (eraseOver d nms_thresh ds)

/-- The outer emission loop of `nms` (lines 122-131): emit the first
remaining detection of the (sorted) class group, erase the later ones that
overlap it too much, and continue with what is left. -/
def nmsLoop (nms_thresh : ℚ) (l : List Detection) : List Detection :=
  nmsLoopF nms_thresh l.length l

theorem nmsLoopF_congr (t : ℚ) :
    ∀ f₁ f₂ (l : List Detection), l.length ≤ f₁ → l.length ≤ f₂ →
      nmsLoopF t f₁ l = nmsLoopF t f₂ l := by
  intro f₁
  induction f₁ with
  | zero =>
    intro f₂ l h₁ _
    cases l with
    | nil => cases f₂ <;> rfl
    | cons d ds => simp at h₁
  | succ g ih =>
    intro f₂ l h₁ h₂
    cases l with
    | nil => cases f₂ <;> rfl
    | cons d ds =>
      cases f₂ with
      | zero => simp at h₂
      | succ g₂ =>
        simp only [nmsLoopF, List.cons.injEq, true_and]
        exact ih g₂ _
          (le_trans (eraseOver_length_le _ _ _) (Nat.lt_succ_iff.mp h₁))
          (le_trans (eraseOver_length_le _ _ _) (Nat.lt_succ_iff.mp h₂))

theorem nmsLoop_nil (t : ℚ) : nmsLoop t [] = [] := rfl

theorem nmsLoop_cons (t : ℚ) (d : Detection) (ds : List Detection) :
    nmsLoop t (d :: ds) = d :: nmsLoop t (eraseOver d t ds) := by
  show nmsLoopF t (ds.length + 1) (d :: ds) = _
  simp only [nmsLoopF, List.cons.injEq, true_and, nmsLoop]
  exact nmsLoopF_congr t _ _ _ (eraseOver_length_le _ _ _) le_rfl

/-- Model of the raw output buffer read by `nms`: `output[0]` is the
(float-typed) tuple count, followed by the packed 6-float detection tuples,
modelled as structured records. -/
structure YoloBuf where
  count : ℚ
  dets : List Detection
deriving DecidableEq, Repr

/-- The candidate-reading iteration of `nms`
(`for (int i = 0; i < output[0] && i < 1000; i++)`): tuple `i` is read while
`i < output[0]` and `i < 1000`.  Reading past the provided tuples is
undefined behaviour in C++ and stops the model. -/
def readLoop (cnt : ℚ) : ℕ → List Detection → List Detection
  | _, [] => []
  | i, d :: ds =>
    if (i : ℚ) < cnt ∧ i < 1000 then d :: readLoop cnt (i + 1) ds else []

/-- The candidates considered by one `nms` call. -/
def nmsCandidates (buf : YoloBuf) : List Detection := readLoop buf.count 0 buf.dets

/-- Model of `void nms(std::vector<Detection>& res, float *output, float
conf_thresh, float nms_thresh)` (`nvdsparsebbox_Yolo.cpp` lines 108-133):
read the candidates, drop those at or below the confidence threshold while
grouping the rest by class id in the `std::map`, then for each class group in
ascending key order sort by descending confidence and run the greedy
suppression loop, appending every emitted detection to the result. -/
def nms (buf : YoloBuf) (conf_thresh nms_thresh : ℚ) : List Detection :=
  (nmsFill conf_thresh (nmsCandidates buf) []).flatMap
    (fun kv => nmsLoop nms_thresh (sortDesc kv.2))

/-- Insertion of a class key into a sorted duplicate-free key list; used to
describe the key set of the `std::map` built by `nms`. -/
def keyInsert (k : ℚ) : List ℚ → List ℚ
  | [] => [k]
  | k' :: ks =>
    if k = k' then k' :: ks
    else if k < k' then k :: k' :: ks
    else k' :: keyInsert k ks

/-- The ascending duplicate-free list of class ids occurring in a candidate
list, in the order `std::map` iterates them. -/
def keysOf (c : List Detection) : List ℚ :=
  c.foldl (fun ks d => keyInsert d.class_id ks) []

/-- Modelled from the spec (claim C1, spec section 4.2 step 4): after a
candidate is emitted, remove every other candidate of the group whose IoU
with the emitted box strictly exceeds the IoU threshold. -/
def specSuppress (emitted : Detection) (nms_thresh : ℚ) (l : List Detection) :
    List Detection :=
  l.filter (fun d => !(decide (nms_thresh < iou emitted.bbox d.bbox)))

/-- Fuel-indexed helper for `specGreedy`; any fuel at least the group size
gives the greedy walk's behaviour. -/
def specGreedyF (nms_thresh : ℚ) : ℕ → List Detection → List Detection
  | _, [] => []
  | 0, l => l
  | fuel + 1, d :: ds =>
    d :: specGreedyF nms_thresh fuel (specSuppress d nms_thresh ds)

/-- Modelled from the spec (claim C1, spec section 4.2 step 4): greedily
emit the highest-confidence remaining candidate (the head of the
descending-sorted group), suppress the overlapping remainder, repeat until
the group is empty. -/
def specGreedy (nms_thresh : ℚ) (l : List Detection) : List Detection :=
  specGreedyF nms_thresh l.length l

theorem specGreedyF_congr (t : ℚ) :
    ∀ f₁ f₂ (l : List Detection), l.length ≤ f₁ → l.length ≤ f₂ →
      specGreedyF t f₁ l = specGreedyF t f₂ l := by
  intro f₁
  induction f₁ with
  | zero =>
    intro f₂ l h₁ _
    cases l with
    | nil => cases f₂ <;> rfl
    | cons d ds => simp at h₁
  | succ g ih =>
    intro f₂ l h₁ h₂
    cases l with
    | nil => cases f₂ <;> rfl
    | cons d ds =>
      cases f₂ with
      | zero => simp at h₂
      | succ g₂ =>
        simp only [specGreedyF, List.cons.injEq, true_and]
        exact ih g₂ _
          (le_trans (List.length_filter_le _ _) (Nat.lt_succ_iff.mp h₁))
          (le_trans (List.length_filter_le _ _) (Nat.lt_succ_iff.mp h₂))

theorem specGreedy_cons (t : ℚ) (d : Detection) (ds : List Detection) :
    specGreedy t (d :: ds) = d :: specGreedy t (specSuppress d t ds) := by
  show specGreedyF t (ds.length + 1) (d :: ds) = _
  simp only [specGreedyF, List.cons.injEq, true_and, specGreedy]
  exact specGreedyF_congr t _ _ _ (List.length_filter_le _ _) le_rfl

/-- Modelled from the spec (claim C1, spec section 4.2 steps 1-5): discard
candidates at or below the confidence threshold, partition the survivors
into class groups, sort each group by descending confidence, run the greedy
suppression walk on each group, and concatenate the per-group results. -/
def nmsSpec (buf : YoloBuf) (conf_thresh nms_thresh : ℚ) : List Detection :=
  let survivors := (nmsCandidates buf).filter (fun d => decide (conf_thresh < d.conf))
  (keysOf survivors).flatMap
    (fun k => specGreedy nms_thresh
      (sortDesc (survivors.filter (fun d => decide (d.class_id = k)))))

theorem keyInsert_mem (k a : ℚ) :
    ∀ ks : List ℚ, a ∈ keyInsert k ks ↔ a = k ∨ a ∈ ks := by
  intro ks
  induction ks with
  | nil => simp [keyInsert]
  | cons k' ks ih =>
    by_cases h1 : k = k'
    · subst h1; simp [keyInsert]
    · by_cases h2 : k < k'
      · simp [keyInsert, h1, h2, List.mem_cons]
      · simp only [keyInsert, if_neg h1, if_neg h2, List.mem_cons, ih]
        tauto

theorem keyInsert_pairwise (k : ℚ) :
    ∀ ks : List ℚ, ks.Pairwise (· < ·) → (keyInsert k ks).Pairwise (· < ·) := by
  intro ks
  induction ks with
  | nil => intro _; simp [keyInsert]
  | cons k' ks ih =>
    intro hp
    rcases List.pairwise_cons.mp hp with ⟨hlt, htail⟩
    by_cases h1 : k = k'
    · subst h1; simpa [keyInsert] using hp
    · by_cases h2 : k < k'
      · simp only [keyInsert, if_neg h1, if_pos h2]
        refine List.pairwise_cons.mpr ⟨?_, hp⟩
        intro a ha
        rcases List.mem_cons.mp ha with rfl | ha
        · exact h2
        · exact lt_trans h2 (hlt a ha)
      · have hk : k' < k := by
          rcases lt_trichotomy k k' with h | h | h
          · exact absurd h h2
          · exact absurd h h1
          · exact h
        simp only [keyInsert, if_neg h1, if_neg h2]
        refine List.pairwise_cons.mpr ⟨?_, ih htail⟩
        intro a ha
        rcases (keyInsert_mem k a ks).mp ha with rfl | ha
        · exact hk
        · exact hlt a ha

theorem keysOf_mem (a : ℚ) :
    ∀ (c : List Detection) (ks : List ℚ),
      a ∈ c.foldl (fun s d => keyInsert d.class_id s) ks ↔
        a ∈ ks ∨ ∃ d ∈ c, d.class_id = a := by
  intro c
  induction c with
  | nil => intro ks; simp
  | cons d c ih =>
    intro ks
    rw [List.foldl_cons, ih, keyInsert_mem]
    simp only [List.mem_cons]
    constructor
    · rintro (⟨rfl | h⟩ | ⟨e, he, rfl⟩)
      · exact Or.inr ⟨d, Or.inl rfl, rfl⟩
      · exact Or.inl h
      · exact Or.inr ⟨e, Or.inr he, rfl⟩
    · rintro (h | ⟨e, rfl | he, rfl⟩)
      · exact Or.inl (Or.inr h)
      · exact Or.inl (Or.inl rfl)
      · exact Or.inr ⟨e, he, rfl⟩

theorem keysOf_pairwise :
    ∀ (c : List Detection) (ks : List ℚ), ks.Pairwise (· < ·) →
      (c.foldl (fun s d => keyInsert d.class_id s) ks).Pairwise (· < ·) := by
  intro c
  induction c with
  | nil => intro ks h; simpa using h
  | cons d c ih =>
    intro ks h
    exact ih _ (keyInsert_pairwise _ _ h)

theorem mem_keysOf_iff (a : ℚ) (c : List Detection) :
    a ∈ keysOf c ↔ ∃ d ∈ c, d.class_id = a := by
  rw [keysOf, keysOf_mem]
  simp

theorem keysOf_sorted (c : List Detection) : (keysOf c).Pairwise (· < ·) :=
  keysOf_pairwise c [] (List.Pairwise.nil)

/-- The association list `nms` has built once all candidates of `c` have been
inserted: keys are the (ascending, duplicate-free) class ids of `c`, and each
key's vector holds the candidates of that class in arrival order. -/
def classGroups (c : List Detection) : List (ℚ × List Detection) :=
  (keysOf c).map (fun k => (k, c.filter (fun e => decide (e.class_id = k))))

theorem mapInsert_map (k : ℚ) (d : Detection) (hd : d.class_id = k) :
    ∀ (ks : List ℚ) (g : ℚ → List Detection), ks.Pairwise (· < ·) →
      (k ∉ ks → g k = []) →
      mapInsert k d (ks.map (fun x => (x, g x))) =
        (keyInsert k ks).map
          (fun x => (x, g x ++ if x = k then [d] else [])) := by
  intro ks
  induction ks with
  | nil =>
    intro g _ hempty
    simp [mapInsert, keyInsert, hempty (List.not_mem_nil k)]
  | cons k' ks ih =>
    intro g hp hempty
    rcases List.pairwise_cons.mp hp with ⟨hlt, htail⟩
    by_cases h1 : k = k'
    · subst h1
      have htl : ks.map (fun x => (x, g x ++ if x = k then [d] else [])) =
          ks.map (fun x => (x, g x)) := by
        apply List.map_congr_left
        intro x hx
        have hxk : x ≠ k := fun h => absurd (h ▸ hlt x hx) (lt_irrefl k)
        simp [hxk]
      simp [List.map_cons, mapInsert, keyInsert, htl]
    · by_cases h2 : k < k'
      · have hnot : k ∉ k' :: ks := by
          intro h
          rcases List.mem_cons.mp h with rfl | h
          · exact h1 rfl
          · exact absurd (lt_trans h2 (hlt k h)) (lt_irrefl k)
        have htl : (k' :: ks).map
            (fun x => (x, g x ++ if x = k then [d] else [])) =
            (k' :: ks).map (fun x => (x, g x)) := by
          apply List.map_congr_left
          intro x hx
          have hxk : x ≠ k := by
            intro h
            subst h
            exact absurd hx hnot
          simp [hxk]
        simp only [mapInsert, if_neg h1, if_pos h2, keyInsert, List.map_cons]
        rw [List.map_cons] at htl
        simp [htl, hempty hnot]
      · have hk : k' < k := by
          rcases lt_trichotomy k k' with h | h | h
          · exact absurd h h2
          · exact absurd h h1
          · exact h
        have hkk : k' ≠ k := fun h => absurd (h ▸ hk) (lt_irrefl k)
        simp only [List.map_cons, mapInsert, if_neg h1, if_neg h2, keyInsert,
          if_neg hkk, List.append_nil]
        rw [ih g htail (fun hn => hempty (fun hmem => by
          rcases List.mem_cons.mp hmem with rfl | h
          · exact absurd hk (lt_irrefl k)
          · exact hn h))]

theorem mapInsert_classGroups (d : Detection) (c : List Detection) :
    mapInsert d.class_id d (classGroups c) = classGroups (c ++ [d]) := by
  have hcov : d.class_id ∉ keysOf c →
      c.filter (fun e => decide (e.class_id = d.class_id)) = [] := by
    intro hn
    rw [List.filter_eq_nil_iff]
    intro e he
    intro hcl
    exact hn ((mem_keysOf_iff _ _).mpr ⟨e, he, of_decide_eq_true hcl⟩)
  have := mapInsert_map d.class_id d rfl (keysOf c)
    (fun x => c.filter (fun e => decide (e.class_id = x)))
    (keysOf_sorted c) hcov
  rw [classGroups, this, classGroups]
  have hkeys : keysOf (c ++ [d]) = keyInsert d.class_id (keysOf c) := by
    rw [keysOf, keysOf, List.foldl_append, List.foldl_cons, List.foldl_nil]
  rw [hkeys]
  apply List.map_congr_left
  intro x _
  have : (c ++ [d]).filter (fun e => decide (e.class_id = x)) =
      c.filter (fun e => decide (e.class_id = x)) ++
        if x = d.class_id then [d] else [] := by
    rw [List.filter_append]
    by_cases h : x = d.class_id
    · simp [h]
    · have : ¬(d.class_id = x) := fun hh => h hh.symm
      simp [h, this]
  rw [this]

theorem nmsFill_classGroups (ct : ℚ) :
    ∀ (l c : List Detection),
      nmsFill ct l (classGroups c) =
        classGroups (c ++ l.filter (fun d => decide (ct < d.conf))) := by
  intro l
  induction l with
  | nil => intro c; simp [nmsFill]
  | cons d ds ih =>
    intro c
    by_cases h : d.conf ≤ ct
    · have hp : ¬(ct < d.conf) := not_lt.mpr h
      simp only [nmsFill, if_pos h, List.filter_cons, hp]
      exact ih c
    · have hp : ct < d.conf := lt_of_not_le h
      simp only [nmsFill, if_neg h, List.filter_cons, hp, decide_eq_true_eq,
        if_true]
      rw [mapInsert_classGroups d c, ih (c ++ [d]), List.append_assoc]
      rfl

/-- The survivors of the confidence filter of one `nms` call. -/
def nmsSurvivors (buf : YoloBuf) (conf_thresh : ℚ) : List Detection :=
  (nmsCandidates buf).filter (fun d => decide (conf_thresh < d.conf))

theorem nmsFill_eq_classGroups (buf : YoloBuf) (ct : ℚ) :
    nmsFill ct (nmsCandidates buf) [] = classGroups (nmsSurvivors buf ct) := by
  have h0 : (classGroups [] : List (ℚ × List Detection)) = [] := rfl
  rw [← h0, nmsFill_classGroups, List.nil_append, nmsSurvivors]

/-- Structural form of `nms`: one greedy suppression pass per class group, in
ascending class-key order, concatenated. -/
theorem nms_eq_groups (buf : YoloBuf) (ct t : ℚ) :
    nms buf ct t =
      (keysOf (nmsSurvivors buf ct)).flatMap
        (fun k => nmsLoop t (sortDesc ((nmsSurvivors buf ct).filter
          (fun e => decide (e.class_id = k))))) := by
  rw [nms, nmsFill_eq_classGroups, classGroups, List.flatMap_map]

theorem eraseOver_eq_specSuppress (item : Detection) (t : ℚ) (l : List Detection) :
    eraseOver item t l = specSuppress item t l := by
  rw [eraseOver_eq_filter, specSuppress]

theorem nmsLoop_eq_specGreedy (t : ℚ) (l : List Detection) :
    nmsLoop t l = specGreedy t l := by
  have main : ∀ (n : ℕ) (l : List Detection), l.length ≤ n →
      nmsLoop t l = specGreedy t l := by
    intro n
    induction n with
    | zero =>
      intro l h
      cases l with
      | nil => rfl
      | cons d ds => simp at h
    | succ n ih =>
      intro l h
      cases l with
      | nil => rfl
      | cons d ds =>
        rw [nmsLoop_cons, specGreedy_cons, eraseOver_eq_specSuppress]
        rw [ih (specSuppress d t ds)
          (le_trans (List.length_filter_le _ _) (Nat.lt_succ_iff.mp h))]
  exact main l.length l le_rfl

/-- Claim C1: for every input candidate buffer, confidence threshold and IoU
threshold, `nms` first discards every candidate whose confidence is at or
below the confidence threshold, partitions the survivors into groups by class
id, sorts each group in descending confidence order, greedily emits the
highest-confidence remaining candidate of a group while removing every other
candidate of the same group whose IoU with the emitted box strictly exceeds
the IoU threshold until the group is empty, and returns the concatenation of
the per-group results (the spec-side pipeline `nmsSpec`). -/
theorem nms_refines_spec (buf : YoloBuf) (conf_thresh nms_thresh : ℚ) :
    nms buf conf_thresh nms_thresh = nmsSpec buf conf_thresh nms_thresh := by
  rw [nms_eq_groups]
  simp only [nmsSpec, nmsSurvivors, nmsLoop_eq_specGreedy]

theorem interRight_le_left_edge (a b : Box) :
    interRight a b - interLeft a b ≤ a.w := by
  have h1 : interRight a b ≤ a.x + a.w / 2 := min_le_left _ _
  have h2 : a.x - a.w / 2 ≤ interLeft a b := le_max_left _ _
  linarith

theorem interRight_le_right_edge (a b : Box) :
    interRight a b - interLeft a b ≤ b.w := by
  have h1 : interRight a b ≤ b.x + b.w / 2 := min_le_right _ _
  have h2 : b.x - b.w / 2 ≤ interLeft a b := le_max_right _ _
  linarith

theorem interBottom_le_top_edge (a b : Box) :
    interBottom a b - interTop a b ≤ a.h := by
  have h1 : interBottom a b ≤ a.y + a.h / 2 := min_le_left _ _
  have h2 : a.y - a.h / 2 ≤ interTop a b := le_max_left _ _
  linarith

theorem interBottom_le_bottom_edge (a b : Box) :
    interBottom a b - interTop a b ≤ b.h := by
  have h1 : interBottom a b ≤ b.y + b.h / 2 := min_le_right _ _
  have h2 : b.y - b.h / 2 ≤ interTop a b := le_max_right _ _
  linarith

/-- Claim C9: for boxes with strictly positive width and height the `iou`
function lies in `[0, 1]`, a box has IoU exactly 1 with itself, the result is
exactly zero whenever the horizontal or vertical intersecting span is
inverted, and in the dividing branch the union term is strictly positive, so
the division is well defined. -/
theorem iou_bounds (a b : Box)
    (haw : 0 < a.w) (hah : 0 < a.h) (hbw : 0 < b.w) (hbh : 0 < b.h) :
    0 ≤ iou a b ∧ iou a b ≤ 1 ∧ iou a a = 1 ∧
      ((interTop a b > interBottom a b ∨ interLeft a b > interRight a b) →
        iou a b = 0) ∧
      (¬(interTop a b > interBottom a b ∨ interLeft a b > interRight a b) →
        0 < a.w * a.h + b.w * b.h - interBoxS a b) := by
  have hself : iou a a = 1 := by
    have hl : interLeft a a = a.x - a.w / 2 := max_self _
    have hr : interRight a a = a.x + a.w / 2 := min_self _
    have ht : interTop a a = a.y - a.h / 2 := max_self _
    have hb2 : interBottom a a = a.y + a.h / 2 := min_self _
    have hS : interBoxS a a = a.w * a.h := by
      rw [interBoxS, hl, hr, ht, hb2]; ring
    have hcond : ¬(interTop a a > interBottom a a ∨
        interLeft a a > interRight a a) := by
      rw [ht, hb2, hl, hr]
      push_neg
      constructor <;> linarith
    rw [iou, if_neg hcond, hS]
    have hne : a.w * a.h ≠ 0 := ne_of_gt (mul_pos haw hah)
    have : a.w * a.h + a.w * a.h - a.w * a.h = a.w * a.h := by ring
    rw [this, div_self hne]
  by_cases hcond : interTop a b > interBottom a b ∨
      interLeft a b > interRight a b
  · refine ⟨?_, ?_, hself, fun _ => ?_, fun hc => absurd hcond hc⟩ <;>
      rw [iou, if_pos hcond]
    · norm_num
  · have hw : 0 ≤ interRight a b - interLeft a b := by
      push_neg at hcond
      linarith [hcond.2]
    have hh : 0 ≤ interBottom a b - interTop a b := by
      push_neg at hcond
      linarith [hcond.1]
    have hIa : interBoxS a b ≤ a.w * a.h := by
      rw [interBoxS]
      exact mul_le_mul (interRight_le_left_edge a b)
        (interBottom_le_top_edge a b) hh (le_of_lt haw)
    have hIb : interBoxS a b ≤ b.w * b.h := by
      rw [interBoxS]
      exact mul_le_mul (interRight_le_right_edge a b)
        (interBottom_le_bottom_edge a b) hh (le_of_lt hbw)
    have hI0 : 0 ≤ interBoxS a b := mul_nonneg hw hh
    have hden : 0 < a.w * a.h + b.w * b.h - interBoxS a b := by
      have : 0 < a.w * a.h := mul_pos haw hah
      linarith
    refine ⟨?_, ?_, hself, fun hc => absurd hc hcond, fun _ => hden⟩
    · rw [iou, if_neg hcond]
      exact div_nonneg hI0 (le_of_lt hden)
    · rw [iou, if_neg hcond]
      rw [div_le_one hden]
      linarith

/-- Witness for `iou_bounds` at two concrete overlapping 2-by-2 boxes. -/
theorem iou_bounds_witness :
    (0:ℚ) < 2 ∧
      (0 ≤ iou ⟨0, 0, 2, 2⟩ ⟨1, 1, 2, 2⟩ ∧ iou ⟨0, 0, 2, 2⟩ ⟨1, 1, 2, 2⟩ ≤ 1 ∧
        iou ⟨0, 0, 2, 2⟩ ⟨0, 0, 2, 2⟩ = 1 ∧
        ((interTop ⟨0, 0, 2, 2⟩ ⟨1, 1, 2, 2⟩ > interBottom ⟨0, 0, 2, 2⟩ ⟨1, 1, 2, 2⟩ ∨
            interLeft ⟨0, 0, 2, 2⟩ ⟨1, 1, 2, 2⟩ > interRight ⟨0, 0, 2, 2⟩ ⟨1, 1, 2, 2⟩) →
          iou ⟨0, 0, 2, 2⟩ ⟨1, 1, 2, 2⟩ = 0) ∧
        (¬(interTop ⟨0, 0, 2, 2⟩ ⟨1, 1, 2, 2⟩ > interBottom ⟨0, 0, 2, 2⟩ ⟨1, 1, 2, 2⟩ ∨
            interLeft ⟨0, 0, 2, 2⟩ ⟨1, 1, 2, 2⟩ > interRight ⟨0, 0, 2, 2⟩ ⟨1, 1, 2, 2⟩) →
          0 < (2:ℚ) * 2 + 2 * 2 - interBoxS ⟨0, 0, 2, 2⟩ ⟨1, 1, 2, 2⟩)) :=
  ⟨by norm_num,
    iou_bounds ⟨0, 0, 2, 2⟩ ⟨1, 1, 2, 2⟩ (by norm_num) (by norm_num)
      (by norm_num) (by norm_num)⟩

theorem eraseOver_append (item : Detection) (t : ℚ) (l s : List Detection) :
    eraseOver item t (l ++ s) = eraseOver item t l ++ eraseOver item t s := by
  rw [eraseOver_eq_filter, eraseOver_eq_filter, eraseOver_eq_filter,
    List.filter_append]

theorem nmsLoop_append (t : ℚ) (l s : List Detection) :
    ∃ s2, nmsLoop t (l ++ s) = nmsLoop t l ++ s2 := by
  have main : ∀ (n : ℕ) (l s : List Detection), l.length ≤ n →
      ∃ s2, nmsLoop t (l ++ s) = nmsLoop t l ++ s2 := by
    intro n
    induction n with
    | zero =>
      intro l s h
      cases l with
      | nil => exact ⟨nmsLoop t s, by simp [nmsLoop_nil]⟩
      | cons d ds => simp at h
    | succ n ih =>
      intro l s h
      cases l with
      | nil => exact ⟨nmsLoop t s, by simp [nmsLoop_nil]⟩
      | cons d ds =>
        rw [List.cons_append, nmsLoop_cons, eraseOver_append]
        rcases ih (eraseOver d t ds) (eraseOver d t s)
          (le_trans (eraseOver_length_le _ _ _) (Nat.lt_succ_iff.mp h)) with
          ⟨s2, hs2⟩
        exact ⟨s2, by rw [hs2, nmsLoop_cons, List.cons_append]⟩
  exact main l.length l s le_rfl

theorem orderedInsert_of_forall (a : Detection) :
    ∀ m : List Detection, (∀ x ∈ m, detGE a x) →
      List.orderedInsert detGE a m = a :: m := by
  intro m hm
  cases m with
  | nil => rfl
  | cons b m =>
    rw [List.orderedInsert, if_pos (hm b (List.mem_cons_self b m))]

theorem orderedInsert_filter (a : Detection) (q : Detection → Bool)
    (hq : q a = true) :
    ∀ m : List Detection, List.Sorted detGE m →
      List.orderedInsert detGE a (m.filter q) =
        (List.orderedInsert detGE a m).filter q := by
  intro m
  induction m with
  | nil => simp [List.orderedInsert, hq]
  | cons b m ih =>
    intro hs
    rcases List.sorted_cons.mp hs with ⟨hb, hs'⟩
    by_cases hqb : q b = true
    · rw [List.filter_cons_of_pos hqb, List.orderedInsert, List.orderedInsert]
      by_cases hab : detGE a b
      · rw [if_pos hab, if_pos hab, List.filter_cons_of_pos hq,
          List.filter_cons_of_pos hqb]
      · rw [if_neg hab, if_neg hab, List.filter_cons_of_pos hqb, ih hs']
    · have hqb' : q b = false := Bool.eq_false_iff.mpr hqb
      rw [List.filter_cons_of_neg (by simp [hqb']), List.orderedInsert]
      by_cases hab : detGE a b
      · rw [if_pos hab, List.filter_cons_of_pos hq,
          List.filter_cons_of_neg (by simp [hqb'])]
        exact orderedInsert_of_forall a (m.filter q) (fun x hx =>
          Trans.trans hab (hb x (List.mem_of_mem_filter hx)))
      · rw [if_neg hab, List.filter_cons_of_neg (by simp [hqb']), ih hs']

theorem filter_orderedInsert_of_neg (a : Detection) (q : Detection → Bool)
    (hq : q a = false) (m : List Detection) :
    (List.orderedInsert detGE a m).filter q = m.filter q := by
  rw [List.orderedInsert_eq_take_drop, List.filter_append, List.filter_cons,
    hq]
  simp only [Bool.false_eq_true, if_false]
  rw [← List.filter_append, List.takeWhile_append_dropWhile]

theorem sortDesc_filter (q : Detection → Bool) (l : List Detection) :
    sortDesc (l.filter q) = (sortDesc l).filter q := by
  induction l with
  | nil => rfl
  | cons a l ih =>
    by_cases hqa : q a = true
    · rw [List.filter_cons_of_pos hqa]
      show List.orderedInsert detGE a (sortDesc (l.filter q)) = _
      rw [ih, orderedInsert_filter a q hqa (sortDesc l)
        (List.sorted_insertionSort detGE l)]
      rfl
    · have hqa' : q a = false := Bool.eq_false_iff.mpr hqa
      rw [List.filter_cons_of_neg (by simp [hqa'])]
      show sortDesc (l.filter q) =
        (List.orderedInsert detGE a (sortDesc l)).filter q
      rw [filter_orderedInsert_of_neg a q hqa', ih]

theorem sorted_conf_split (ct : ℚ) :
    ∀ l : List Detection, List.Sorted detGE l →
      l.filter (fun d => decide (ct < d.conf)) ++
        l.filter (fun d => !(decide (ct < d.conf))) = l := by
  intro l
  induction l with
  | nil => intro _; rfl
  | cons a l ih =>
    intro hs
    rcases List.sorted_cons.mp hs with ⟨ha, hs'⟩
    by_cases hp : ct < a.conf
    · rw [List.filter_cons_of_pos (by simp [hp]),
        List.filter_cons_of_neg (by simp [hp]), List.cons_append, ih hs']
    · have hall : ∀ x ∈ l, ¬(ct < x.conf) := by
        intro x hx
        have := ha x hx
        intro hcx
        exact hp (lt_of_lt_of_le hcx this)
      rw [List.filter_cons_of_neg (by simp [hp]),
        List.filter_cons_of_pos (by simp [hp]),
        List.filter_eq_nil_iff.mpr (by intro x hx; simp [hall x hx]),
        List.filter_eq_self.mpr (by intro x hx; simp [hall x hx]),
        List.nil_append]

theorem sublist_of_subset_of_sorted :
    ∀ (l₂ l₁ : List ℚ), l₁.Pairwise (· < ·) → l₂.Pairwise (· < ·) →
      (∀ a ∈ l₁, a ∈ l₂) → l₁.Sublist l₂ := by
  intro l₂
  induction l₂ with
  | nil =>
    intro l₁ _ _ hsub
    cases l₁ with
    | nil => exact List.Sublist.refl []
    | cons a l₁ => exact absurd (hsub a (List.mem_cons_self a l₁)) (List.not_mem_nil a)
  | cons b l₂ ih =>
    intro l₁ hp₁ hp₂ hsub
    rcases List.pairwise_cons.mp hp₂ with ⟨hb₂, hp₂'⟩
    cases l₁ with
    | nil => exact List.nil_sublist _
    | cons a l₁ =>
      rcases List.pairwise_cons.mp hp₁ with ⟨ha₁, hp₁'⟩
      by_cases hab : a = b
      · subst hab
        refine List.Sublist.cons₂ a (ih l₁ hp₁' hp₂' ?_)
        intro x hx
        rcases List.mem_cons.mp (hsub x (List.mem_cons_of_mem a hx)) with rfl | h
        · exact absurd (ha₁ x hx) (lt_irrefl x)
        · exact h
      · have hal : a ∈ l₂ := by
          rcases List.mem_cons.mp (hsub a (List.mem_cons_self a l₁)) with rfl | h
          · exact absurd rfl hab
          · exact h
        refine List.Sublist.cons b (ih (a :: l₁) hp₁ hp₂' ?_)
        intro x hx
        rcases List.mem_cons.mp hx with rfl | hx'
        · exact hal
        · rcases List.mem_cons.mp (hsub x (List.mem_cons_of_mem a hx')) with rfl | h
          · exact absurd (lt_trans (hb₂ a hal) (ha₁ x hx')) (lt_irrefl x)
          · exact h

/-- Claim C7 (amended): for a fixed candidate buffer and fixed IoU threshold,
raising the confidence threshold never increases the number of detections
emitted by `nms`.  (The IoU-threshold half of the original claim is false,
see the counterexample.) -/
theorem nms_conf_threshold_monotone (buf : YoloBuf) (t ct1 ct2 : ℚ)
    (h : ct1 ≤ ct2) :
    (nms buf ct2 t).length ≤ (nms buf ct1 t).length := by
  have hs : nmsSurvivors buf ct2 =
      (nmsSurvivors buf ct1).filter (fun d => decide (ct2 < d.conf)) := by
    rw [nmsSurvivors, nmsSurvivors, List.filter_filter]
    apply List.filter_congr
    intro x _
    by_cases h2 : ct2 < x.conf
    · have h1 : ct1 < x.conf := lt_of_le_of_lt h h2
      simp [h1, h2]
    · simp [h2]
  have key : ∀ k : ℚ,
      (nmsLoop t (sortDesc ((nmsSurvivors buf ct2).filter
        (fun e => decide (e.class_id = k))))).length ≤
      (nmsLoop t (sortDesc ((nmsSurvivors buf ct1).filter
        (fun e => decide (e.class_id = k))))).length := by
    intro k
    have hgrp : (nmsSurvivors buf ct2).filter
        (fun e => decide (e.class_id = k)) =
        ((nmsSurvivors buf ct1).filter (fun e => decide (e.class_id = k))).filter
          (fun d => decide (ct2 < d.conf)) := by
      rw [hs, List.filter_filter, List.filter_filter]
      apply List.filter_congr
      intro x _
      exact Bool.and_comm _ _
    rw [hgrp]
    have hsplit : sortDesc ((nmsSurvivors buf ct1).filter
        (fun e => decide (e.class_id = k))) =
        sortDesc (((nmsSurvivors buf ct1).filter
          (fun e => decide (e.class_id = k))).filter
            (fun d => decide (ct2 < d.conf))) ++
          (sortDesc ((nmsSurvivors buf ct1).filter
            (fun e => decide (e.class_id = k)))).filter
              (fun d => !(decide (ct2 < d.conf))) := by
      rw [sortDesc_filter (fun d => decide (ct2 < d.conf))
        ((nmsSurvivors buf ct1).filter (fun e => decide (e.class_id = k)))]
      exact (sorted_conf_split ct2 _ (List.sorted_insertionSort detGE _)).symm
    rcases nmsLoop_append t
      (sortDesc (((nmsSurvivors buf ct1).filter
        (fun e => decide (e.class_id = k))).filter
          (fun d => decide (ct2 < d.conf))))
      ((sortDesc ((nmsSurvivors buf ct1).filter
        (fun e => decide (e.class_id = k)))).filter
          (fun d => !(decide (ct2 < d.conf)))) with ⟨s2, hs2⟩
    rw [hsplit, hs2, List.length_append]
    exact Nat.le_add_right _ _
  have hkeys : (keysOf (nmsSurvivors buf ct2)).Sublist
      (keysOf (nmsSurvivors buf ct1)) := by
    apply sublist_of_subset_of_sorted _ _ (keysOf_sorted _) (keysOf_sorted _)
    intro a ha
    rcases (mem_keysOf_iff a _).mp ha with ⟨d, hd, rfl⟩
    apply (mem_keysOf_iff _ _).mpr
    refine ⟨d, ?_, rfl⟩
    rw [hs] at hd
    exact List.mem_of_mem_filter hd
  rw [nms_eq_groups, nms_eq_groups, List.length_flatMap, List.length_flatMap]
  calc (List.map (List.length ∘ fun k => nmsLoop t
        (sortDesc ((nmsSurvivors buf ct2).filter
          (fun e => decide (e.class_id = k)))))
        (keysOf (nmsSurvivors buf ct2))).sum
      ≤ (List.map (List.length ∘ fun k => nmsLoop t
          (sortDesc ((nmsSurvivors buf ct1).filter
            (fun e => decide (e.class_id = k)))))
          (keysOf (nmsSurvivors buf ct2))).sum :=
        List.sum_le_sum (fun k _ => key k)
    _ ≤ (List.map (List.length ∘ fun k => nmsLoop t
          (sortDesc ((nmsSurvivors buf ct1).filter
            (fun e => decide (e.class_id = k)))))
          (keysOf (nmsSurvivors buf ct1))).sum :=
        List.Sublist.sum_le_sum (hkeys.map _) (fun a _ => Nat.zero_le a)

/-- Four same-class candidates exhibiting the non-monotonicity of `nms` in
the IoU threshold: the 0.9-confidence box overlaps the 0.8-confidence box at
IoU 3/5, and the 0.8-confidence box overlaps each of the last two at IoU
83/117, while all other pairs overlap at most 1/2. -/
def c7Buf : YoloBuf :=
  ⟨4, [⟨⟨0, 5/2, 10, 10⟩, 9/10, 0⟩,
       ⟨⟨0, 0, 10, 10⟩, 8/10, 0⟩,
       ⟨⟨17/10, 0, 10, 10⟩, 7/10, 0⟩,
       ⟨⟨-17/10, 0, 10, 10⟩, 6/10, 0⟩]⟩

/-- Claim C7 counterexample: raising the IoU threshold from 1/2 to 7/10 on a
fixed buffer and fixed confidence threshold DECREASES the number of emitted
detections from 3 to 2, refuting the claim that raising the IoU threshold
never decreases the number of detections. -/
theorem nms_iou_threshold_not_monotone :
    (1:ℚ)/2 < 7/10 ∧
      (nms c7Buf 0 (1/2)).length = 3 ∧
      (nms c7Buf 0 (7/10)).length = 2 := by
  refine ⟨by norm_num, by decide, by decide⟩

/-- Witness for `nms_conf_threshold_monotone` at the concrete buffer `c7Buf`
and thresholds 0 and 1. -/
theorem nms_conf_threshold_monotone_witness :
    (0:ℚ) ≤ 1 ∧
      (nms c7Buf 1 (1/2)).length ≤ (nms c7Buf 0 (1/2)).length :=
  ⟨by norm_num, nms_conf_threshold_monotone c7Buf (1/2) 0 1 (by norm_num)⟩

theorem nmsLoop_sublist (t : ℚ) (l : List Detection) :
    (nmsLoop t l).Sublist l := by
  have main : ∀ (n : ℕ) (l : List Detection), l.length ≤ n →
      (nmsLoop t l).Sublist l := by
    intro n
    induction n with
    | zero =>
      intro l h
      cases l with
      | nil => exact List.Sublist.refl []
      | cons d ds => simp at h
    | succ n ih =>
      intro l h
      cases l with
      | nil => exact List.Sublist.refl []
      | cons d ds =>
        rw [nmsLoop_cons]
        refine List.Sublist.cons₂ d ?_
        have h1 : (nmsLoop t (eraseOver d t ds)).Sublist (eraseOver d t ds) :=
          ih _ (le_trans (eraseOver_length_le _ _ _) (Nat.lt_succ_iff.mp h))
        have h2 : (eraseOver d t ds).Sublist ds := by
          rw [eraseOver_eq_filter]; exact List.filter_sublist ds
        exact h1.trans h2
  exact main l.length l le_rfl

theorem nmsLoop_length_le (t : ℚ) (l : List Detection) :
    (nmsLoop t l).length ≤ l.length :=
  (nmsLoop_sublist t l).length_le

/-- Any two detections emitted by one greedy suppression pass have IoU at
most the threshold: each later emission survived the earlier emission's
erase sweep. -/
theorem nmsLoop_pairwise (t : ℚ) (l : List Detection) :
    (nmsLoop t l).Pairwise (fun a b => ¬(iou a.bbox b.bbox > t)) := by
  have main : ∀ (n : ℕ) (l : List Detection), l.length ≤ n →
      (nmsLoop t l).Pairwise (fun a b => ¬(iou a.bbox b.bbox > t)) := by
    intro n
    induction n with
    | zero =>
      intro l h
      cases l with
      | nil => exact List.Pairwise.nil
      | cons d ds => simp at h
    | succ n ih =>
      intro l h
      cases l with
      | nil => exact List.Pairwise.nil
      | cons d ds =>
        rw [nmsLoop_cons]
        refine List.pairwise_cons.mpr ⟨?_, ih _
          (le_trans (eraseOver_length_le _ _ _) (Nat.lt_succ_iff.mp h))⟩
        intro x hx
        have hx2 : x ∈ eraseOver d t ds :=
          (nmsLoop_sublist t _).subset hx
        rw [eraseOver_eq_filter] at hx2
        have := List.of_mem_filter hx2
        simpa using this
  exact main l.length l le_rfl

/-- A group whose members pairwise respect the IoU threshold passes through
the greedy suppression loop unchanged. -/
theorem nmsLoop_id (t : ℚ) (l : List Detection)
    (hp : l.Pairwise (fun a b => ¬(iou a.bbox b.bbox > t))) :
    nmsLoop t l = l := by
  have main : ∀ (n : ℕ) (l : List Detection), l.length ≤ n →
      l.Pairwise (fun a b => ¬(iou a.bbox b.bbox > t)) → nmsLoop t l = l := by
    intro n
    induction n with
    | zero =>
      intro l h _
      cases l with
      | nil => rfl
      | cons d ds => simp at h
    | succ n ih =>
      intro l h hp
      cases l with
      | nil => rfl
      | cons d ds =>
        rcases List.pairwise_cons.mp hp with ⟨hd, hp'⟩
        have herase : eraseOver d t ds = ds := by
          rw [eraseOver_eq_filter]
          apply List.filter_eq_self.mpr
          intro x hx
          simpa using hd x hx
        rw [nmsLoop_cons, herase,
          ih ds (Nat.lt_succ_iff.mp h) hp']
  exact main l.length l le_rfl hp

theorem nmsLoop_sorted (t : ℚ) (l : List Detection)
    (hs : List.Sorted detGE l) : List.Sorted detGE (nmsLoop t l) :=
  List.Pairwise.sublist (nmsLoop_sublist t l) hs

theorem flatMap_congr_mem {α β : Type} (l : List α) (f g : α → List β)
    (h : ∀ x ∈ l, f x = g x) : l.flatMap f = l.flatMap g := by
  induction l with
  | nil => rfl
  | cons a l ih =>
    rw [List.flatMap_cons, List.flatMap_cons,
      h a (List.mem_cons_self a l),
      ih (fun x hx => h x (List.mem_cons_of_mem a hx))]

theorem sum_map_addF (f g : ℚ → ℕ) :
    ∀ ks : List ℚ,
      (ks.map (fun k => f k + g k)).sum = (ks.map f).sum + (ks.map g).sum := by
  intro ks
  induction ks with
  | nil => rfl
  | cons k ks ih =>
    simp only [List.map_cons, List.sum_cons, ih]
    omega

theorem sum_map_indicator (a : ℚ) :
    ∀ ks : List ℚ, ks.Pairwise (· < ·) → a ∈ ks →
      (ks.map (fun k => if a = k then 1 else 0)).sum = 1 := by
  intro ks
  induction ks with
  | nil => intro _ h; exact absurd h (List.not_mem_nil a)
  | cons k ks ih =>
    intro hp ha
    rcases List.pairwise_cons.mp hp with ⟨hk, hp'⟩
    rcases List.mem_cons.mp ha with rfl | ha'
    · have hz : (ks.map (fun k' => if a = k' then 1 else 0)).sum = 0 := by
        rw [List.sum_eq_zero]
        intro x hx
        rcases List.mem_map.mp hx with ⟨k', hk', rfl⟩
        have : a ≠ k' := fun h => absurd (h ▸ hk k' hk') (lt_irrefl a)
        simp [this]
      simp [hz]
    · have hak : a ≠ k := by
        intro h
        subst h
        exact absurd (hk a ha') (lt_irrefl a)
      simp only [List.map_cons, List.sum_cons, if_neg hak, ih hp' ha',
        Nat.zero_add]

theorem sum_group_lengths :
    ∀ (c : List Detection) (ks : List ℚ), ks.Pairwise (· < ·) →
      (∀ d ∈ c, d.class_id ∈ ks) →
      (ks.map (fun k =>
        (c.filter (fun e => decide (e.class_id = k))).length)).sum = c.length := by
  intro c
  induction c with
  | nil =>
    intro ks _ _
    rw [List.sum_eq_zero]
    · rfl
    · intro x hx
      rcases List.mem_map.mp hx with ⟨k', _, rfl⟩
      rfl
  | cons d c ih =>
    intro ks hp hcov
    have hstep : ∀ k : ℚ,
        ((d :: c).filter (fun e => decide (e.class_id = k))).length =
          (if d.class_id = k then 1 else 0) +
            (c.filter (fun e => decide (e.class_id = k))).length := by
      intro k
      by_cases h : d.class_id = k <;> simp [List.filter_cons, h] <;> omega
    rw [List.map_congr_left (fun k _ => hstep k), sum_map_addF,
      sum_map_indicator d.class_id ks hp (hcov d (List.mem_cons_self d c)),
      ih ks hp (fun e he => hcov e (List.mem_cons_of_mem d he))]
    simp [List.length_cons, Nat.add_comm]

theorem readLoop_length (cnt : ℚ) :
    ∀ (l : List Detection) (i : ℕ), (readLoop cnt i l).length ≤ 1000 - i := by
  intro l
  induction l with
  | nil => intro i; simp [readLoop]
  | cons d ds ih =>
    intro i
    by_cases h : (i : ℚ) < cnt ∧ i < 1000
    · rw [readLoop, if_pos h]
      have := ih (i + 1)
      simp only [List.length_cons]
      omega
    · rw [readLoop, if_neg h]
      simp

theorem readLoop_all (cnt : ℚ) :
    ∀ (l : List Detection) (i : ℕ),
      ((i + l.length : ℕ) : ℚ) ≤ cnt → i + l.length ≤ 1000 →
      readLoop cnt i l = l := by
  intro l
  induction l with
  | nil => intro i _ _; rfl
  | cons d ds ih =>
    intro i hcnt hbound
    have hi : (i : ℚ) < cnt := by
      have h1 : ((i : ℕ) : ℚ) + 1 ≤ ((i + (ds.length + 1) : ℕ) : ℚ) := by
        push_cast
        have : (0:ℚ) ≤ (ds.length : ℚ) := Nat.cast_nonneg _
        linarith
      have := le_trans h1 hcnt
      linarith
    have hi2 : i < 1000 := by
      simp only [List.length_cons] at hbound
      omega
    rw [readLoop, if_pos ⟨hi, hi2⟩]
    have hlen : i + 1 + ds.length = i + (d :: ds).length := by
      simp only [List.length_cons]
      omega
    rw [ih (i + 1) (by rw [hlen]; exact hcnt) (by rw [hlen]; exact hbound)]

theorem flatMap_filter_class :
    ∀ (ks : List ℚ) (B : ℚ → List Detection), ks.Pairwise (· < ·) →
      (∀ k ∈ ks, ∀ x ∈ B k, x.class_id = k) →
      ∀ k ∈ ks,
        (ks.flatMap B).filter (fun e => decide (e.class_id = k)) = B k := by
  intro ks
  induction ks with
  | nil => intro B _ _ k hk; exact absurd hk (List.not_mem_nil k)
  | cons k' ks ih =>
    intro B hp hcls k hk
    rcases List.pairwise_cons.mp hp with ⟨hlt, hp'⟩
    rw [List.flatMap_cons, List.filter_append]
    rcases List.mem_cons.mp hk with rfl | hk'
    · rw [List.filter_eq_self.mpr (fun x hx => by
        simp [hcls k (List.mem_cons_self k ks) x hx]),
        List.filter_eq_nil_iff.mpr ?_, List.append_nil]
      intro x hx
      rcases List.mem_flatMap.mp hx with ⟨k2, hk2, hxk2⟩
      have hx2 : x.class_id = k2 := hcls k2 (List.mem_cons_of_mem _ hk2) x hxk2
      have : k ≠ k2 := fun h => absurd (h ▸ hlt k2 hk2) (lt_irrefl k)
      simp [hx2, this.symm]
    · rw [List.filter_eq_nil_iff.mpr (fun x hx => by
        have hx2 : x.class_id = k' := hcls k' (List.mem_cons_self k' ks) x hx
        have : k' ≠ k := fun h => absurd (h ▸ hlt k hk') (lt_irrefl k')
        simp [hx2, this]), List.nil_append]
      exact ih (fun k2 => B k2) hp'
        (fun k2 hk2 => hcls k2 (List.mem_cons_of_mem _ hk2)) k hk'

theorem keysOf_flatMap_blocks (ks : List ℚ) (B : ℚ → List Detection)
    (hp : ks.Pairwise (· < ·))
    (hcls : ∀ k ∈ ks, ∀ x ∈ B k, x.class_id = k)
    (hne : ∀ k ∈ ks, B k ≠ []) :
    keysOf (ks.flatMap B) = ks := by
  apply List.Sublist.antisymm
  · apply sublist_of_subset_of_sorted ks _ (keysOf_sorted _) hp
    intro a ha
    rcases (mem_keysOf_iff a _).mp ha with ⟨d, hd, rfl⟩
    rcases List.mem_flatMap.mp hd with ⟨k2, hk2, hdk2⟩
    rw [hcls k2 hk2 d hdk2]
    exact hk2
  · apply sublist_of_subset_of_sorted _ ks hp (keysOf_sorted _)
    intro a ha
    rcases List.exists_mem_of_ne_nil (B a) (hne a ha) with ⟨d, hd⟩
    exact (mem_keysOf_iff a _).mpr
      ⟨d, List.mem_flatMap.mpr ⟨a, ha, hd⟩, hcls a ha d hd⟩

theorem sortDesc_length (l : List Detection) : (sortDesc l).length = l.length :=
  (List.perm_insertionSort detGE l).length_eq

theorem sortDesc_mem (x : Detection) (l : List Detection) :
    x ∈ sortDesc l ↔ x ∈ l :=
  (List.perm_insertionSort detGE l).mem_iff

/-- Every `nms` result holds at most 1000 detections (the candidate-reading
loop is capped at 1000 tuples and suppression only removes entries). -/
theorem nms_length_le_1000 (buf : YoloBuf) (ct t : ℚ) :
    (nms buf ct t).length ≤ 1000 := by
  rw [nms_eq_groups, List.length_flatMap]
  have step1 : (List.map (List.length ∘ fun k => nmsLoop t
      (sortDesc ((nmsSurvivors buf ct).filter
        (fun e => decide (e.class_id = k)))))
      (keysOf (nmsSurvivors buf ct))).sum ≤
      (List.map (fun k => ((nmsSurvivors buf ct).filter
        (fun e => decide (e.class_id = k))).length)
        (keysOf (nmsSurvivors buf ct))).sum := by
    apply List.sum_le_sum
    intro k _
    calc (nmsLoop t (sortDesc ((nmsSurvivors buf ct).filter
          (fun e => decide (e.class_id = k))))).length
        ≤ (sortDesc ((nmsSurvivors buf ct).filter
            (fun e => decide (e.class_id = k)))).length := nmsLoop_length_le _ _
      _ = ((nmsSurvivors buf ct).filter
            (fun e => decide (e.class_id = k))).length := sortDesc_length _
  have step2 : (List.map (fun k => ((nmsSurvivors buf ct).filter
      (fun e => decide (e.class_id = k))).length)
      (keysOf (nmsSurvivors buf ct))).sum = (nmsSurvivors buf ct).length :=
    sum_group_lengths (nmsSurvivors buf ct) _ (keysOf_sorted _)
      (fun d hd => (mem_keysOf_iff _ _).mpr ⟨d, hd, rfl⟩)
  have step3 : (nmsSurvivors buf ct).length ≤ (nmsCandidates buf).length :=
    List.length_filter_le _ _
  have step4 : (nmsCandidates buf).length ≤ 1000 := by
    have := readLoop_length buf.count buf.dets 0
    simpa [nmsCandidates] using this
  omega

theorem sortDesc_eq_insertionSort (l : List Detection) :
    sortDesc l = l.insertionSort detGE := rfl

/-- Claim C8: running the suppression engine a second time on its own output
(packed back into a buffer with its exact count), with the same confidence
threshold and the same IoU threshold, returns that output unchanged — as a
list, hence in particular as a set. -/
theorem nms_idempotent (buf : YoloBuf) (ct t : ℚ) :
    nms ⟨((nms buf ct t).length : ℚ), nms buf ct t⟩ ct t = nms buf ct t := by
  have hres : nms buf ct t =
      (keysOf (nmsSurvivors buf ct)).flatMap
        (fun k => nmsLoop t (sortDesc ((nmsSurvivors buf ct).filter
          (fun e => decide (e.class_id = k))))) := nms_eq_groups buf ct t
  have hcls : ∀ k ∈ keysOf (nmsSurvivors buf ct),
      ∀ x ∈ nmsLoop t (sortDesc ((nmsSurvivors buf ct).filter
        (fun e => decide (e.class_id = k)))), x.class_id = k := by
    intro k _ x hx
    have hx2 : x ∈ sortDesc ((nmsSurvivors buf ct).filter
        (fun e => decide (e.class_id = k))) := (nmsLoop_sublist t _).subset hx
    have hx3 := (sortDesc_mem x _).mp hx2
    have := List.of_mem_filter hx3
    simpa using this
  have hne : ∀ k ∈ keysOf (nmsSurvivors buf ct),
      nmsLoop t (sortDesc ((nmsSurvivors buf ct).filter
        (fun e => decide (e.class_id = k)))) ≠ [] := by
    intro k hk
    rcases (mem_keysOf_iff k _).mp hk with ⟨d, hd, rfl⟩
    have hdg : d ∈ (nmsSurvivors buf ct).filter
        (fun e => decide (e.class_id = d.class_id)) :=
      List.mem_filter.mpr ⟨hd, by simp⟩
    have hdm : d ∈ sortDesc ((nmsSurvivors buf ct).filter
        (fun e => decide (e.class_id = d.class_id))) :=
      (sortDesc_mem d _).mpr hdg
    cases hsd : sortDesc ((nmsSurvivors buf ct).filter
        (fun e => decide (e.class_id = d.class_id))) with
    | nil => rw [hsd] at hdm; exact absurd hdm (List.not_mem_nil d)
    | cons a l => rw [nmsLoop_cons]; simp
  have hconf : ∀ x ∈ nms buf ct t, decide (ct < x.conf) = true := by
    intro x hx
    rw [hres] at hx
    rcases List.mem_flatMap.mp hx with ⟨k, _, hxk⟩
    have hx2 := (sortDesc_mem x _).mp ((nmsLoop_sublist t _).subset hxk)
    have hx3 : x ∈ nmsSurvivors buf ct := List.mem_of_mem_filter hx2
    rw [nmsSurvivors] at hx3
    exact (List.mem_filter.mp hx3).2
  have hcand : nmsCandidates ⟨((nms buf ct t).length : ℚ), nms buf ct t⟩ =
      nms buf ct t := by
    rw [nmsCandidates]
    apply readLoop_all
    · simp
    · simpa using nms_length_le_1000 buf ct t
  have hsurv2 : nmsSurvivors ⟨((nms buf ct t).length : ℚ), nms buf ct t⟩ ct =
      nms buf ct t := by
    rw [nmsSurvivors, hcand]
    exact List.filter_eq_self.mpr hconf
  have hkeys : keysOf (nms buf ct t) = keysOf (nmsSurvivors buf ct) := by
    rw [hres]
    exact keysOf_flatMap_blocks _ _ (keysOf_sorted _) hcls hne
  rw [nms_eq_groups ⟨((nms buf ct t).length : ℚ), nms buf ct t⟩ ct t, hsurv2,
    hkeys]
  conv_rhs => rw [hres]
  apply flatMap_congr_mem
  intro k hk
  have hfilter : (nms buf ct t).filter (fun e => decide (e.class_id = k)) =
      nmsLoop t (sortDesc ((nmsSurvivors buf ct).filter
        (fun e => decide (e.class_id = k)))) := by
    rw [hres]
    exact flatMap_filter_class _ _ (keysOf_sorted _) hcls k hk
  rw [hfilter]
  have hsorted : List.Sorted detGE (nmsLoop t (sortDesc
      ((nmsSurvivors buf ct).filter (fun e => decide (e.class_id = k))))) :=
    nmsLoop_sorted t _ (List.sorted_insertionSort detGE _)
  rw [sortDesc_eq_insertionSort, List.Sorted.insertionSort_eq hsorted,
    nmsLoop_id t _ (nmsLoop_pairwise t _)]

/-- Model of `NvDsInferNetworkInfo`: the network input resolution (the
channel count is never read by this parser). -/
structure NetworkInfo where
  width : ℕ
  height : ℕ
deriving DecidableEq, Repr

/-- Model of `NvDsInferParseObjectInfo` (`nvdsinfer.h`): class id (an
`unsigned int`), box in left/top/width/height form and detection
confidence (all `float`). -/
structure NvDsInferParseObjectInfo where
  classId : ℕ
  left : ℚ
  top : ℚ
  width : ℚ
  height : ℚ
  detectionConfidence : ℚ
deriving DecidableEq, Repr

/-- Model of `NvDsInferParseDetectionParams`: only `numClassesConfigured` is
read by this parser, and only to print a warning with no semantic effect. -/
structure DetectionParams where
  numClassesConfigured : ℕ
deriving DecidableEq, Repr

/-- Modelled from the spec: the spec (section 4.1) requires box edges to be
clamped into the interval `[0, networkWidth]` / `[0, networkHeight]`; the
`clamp` helper lives in `trt_utils.h`, which is not among the sources. -/
def clamp (v lo hi : ℚ) : ℚ := min hi (max lo v)

/-- Modelled from the spec: the spec (section 4.1) defines the stride as
`ceil(networkWidth / gridWidth)`; the `DIVUP` macro lives in `trt_utils.h`,
which is not among the sources.  Ceiling division on naturals. -/
def DIVUP (n d : ℕ) : ℕ := (n + d - 1) / d

/-- C++ cast of a float to `unsigned int`: truncation toward zero for
nonnegative values (negative inputs are undefined behaviour in C++; the
model yields 0). -/
def ratToUint (q : ℚ) : ℕ := q.floor.toNat

/-- C++ conversion from `int` to `unsigned int`: reduction modulo `2^32`. -/
def intToUint (i : ℤ) : ℕ := (i % 2 ^ 32).toNat

/-- Model of `convertBBox` (`nvdsparsebbox_Yolo.cpp` lines 211-235): scale
the center back to input resolution by the stride, form the four edges and
clamp everything into the network rectangle.  The C++ leaves `classId` and
`detectionConfidence` uninitialised here (they are set by the caller);
modelled as 0. -/
def convertBBox (bx by_ bw bh : ℚ) (stride netW netH : ℕ) :
    NvDsInferParseObjectInfo :=
  let xCenter := bx * (stride : ℚ)
  let yCenter := by_ * (stride : ℚ)
  let x0 := xCenter - bw / 2
  let y0 := yCenter - bh / 2
  let x1 := x0 + bw
  let y1 := y0 + bh
  let x0c := clamp x0 0 (netW : ℚ)
  let y0c := clamp y0 0 (netH : ℚ)
  let x1c := clamp x1 0 (netW : ℚ)
  let y1c := clamp y1 0 (netH : ℚ)
  { classId := 0, left := x0c, top := y0c,
    width := clamp (x1c - x0c) 0 (netW : ℚ),
    height := clamp (y1c - y0c) 0 (netH : ℚ),
    detectionConfidence := 0 }

/-- Model of `addBBoxProposal` (lines 237-247): convert the box, discard it
when the clamped width or height is below one pixel, otherwise set the
confidence and class id and append it to `binfo`.  Note: no confidence
check of any kind is performed here. -/
def addBBoxProposal (bx by_ bw bh : ℚ) (stride netW netH : ℕ)
    (maxIndex : ℤ) (maxProb : ℚ)
    (binfo : List NvDsInferParseObjectInfo) :
    List NvDsInferParseObjectInfo :=
  let bbi := convertBBox bx by_ bw bh stride netW netH
  if bbi.width < 1 ∨ bbi.height < 1 then binfo
  else binfo ++ [{ bbi with detectionConfidence := maxProb,
                            classId := intToUint maxIndex }]

/-- The class-score loop of the tensor decoders (lines 331-345 and 278-292):
running maximum probability starting at 0 with index starting at -1. -/
def classMax (probAt : ℕ → ℚ) (numOutputClasses : ℕ) : ℚ × ℤ :=
  (List.range numOutputClasses).foldl
    (fun mp i => if probAt i > mp.1 then (probAt i, (i : ℤ)) else mp)
    (0, -1)

/-- One grid-cell/anchor step of `decodeYoloV3Tensor` (lines 310-349).  The
flat buffer is indexed exactly as in the C++
(`bbindex + numGridCells * (b * (5 + numOutputClasses) + channel)`);
out-of-range reads (undefined behaviour in C++) yield 0. -/
def yoloV3Cell (detections : List ℚ) (mask : List ℕ) (anchors : List ℚ)
    (gridSizeW gridSizeH stride numOutputClasses netW netH : ℕ)
    (x y b : ℕ) : List NvDsInferParseObjectInfo :=
  let pw := anchors.getD (mask.getD b 0 * 2) 0
  let ph := anchors.getD (mask.getD b 0 * 2 + 1) 0
  let numGridCells := gridSizeH * gridSizeW
  let bbindex := y * gridSizeW + x
  let at_ := fun ch : ℕ =>
    detections.getD (bbindex + numGridCells * (b * (5 + numOutputClasses) + ch)) 0
  let bx := (x : ℚ) + at_ 0
  let by_ := (y : ℚ) + at_ 1
  let bw := pw * at_ 2
  let bh := ph * at_ 3
  let objectness := at_ 4
  let mx := classMax (fun i => at_ (5 + i)) numOutputClasses
  addBBoxProposal bx by_ bw bh stride netW netH mx.2 (objectness * mx.1) []

/-- Model of `decodeYoloV3Tensor` (lines 302-353): iterate rows, columns and
anchors in order, appending at most one proposal per step. -/
def decodeYoloV3Tensor (detections : List ℚ) (mask : List ℕ)
    (anchors : List ℚ)
    (gridSizeW gridSizeH stride numBBoxes numOutputClasses netW netH : ℕ) :
    List NvDsInferParseObjectInfo :=
  (List.range gridSizeH).flatMap (fun y =>
    (List.range gridSizeW).flatMap (fun x =>
      (List.range numBBoxes).flatMap (fun b =>
        yoloV3Cell detections mask anchors gridSizeW gridSizeH stride
          numOutputClasses netW netH x y b)))

/-- One grid-cell/anchor step of `decodeYoloV2Tensor` (lines 257-296): same
as the V3 step except that the anchors are indexed directly by the anchor
number and the width/height channels pass through `exp`; `expF` abstracts
the real exponential, which has no exact rational counterpart. -/
def yoloV2Cell (expF : ℚ → ℚ) (detections anchors : List ℚ)
    (gridSizeW gridSizeH stride numOutputClasses netW netH : ℕ)
    (x y b : ℕ) : List NvDsInferParseObjectInfo :=
  let pw := anchors.getD (b * 2) 0
  let ph := anchors.getD (b * 2 + 1) 0
  let numGridCells := gridSizeH * gridSizeW
  let bbindex := y * gridSizeW + x
  let at_ := fun ch : ℕ =>
    detections.getD (bbindex + numGridCells * (b * (5 + numOutputClasses) + ch)) 0
  let bx := (x : ℚ) + at_ 0
  let by_ := (y : ℚ) + at_ 1
  let bw := pw * expF (at_ 2)
  let bh := ph * expF (at_ 3)
  let objectness := at_ 4
  let mx := classMax (fun i => at_ (5 + i)) numOutputClasses
  addBBoxProposal bx by_ bw bh stride netW netH mx.2 (objectness * mx.1) []

/-- Model of `decodeYoloV2Tensor` (lines 249-300). -/
def decodeYoloV2Tensor (expF : ℚ → ℚ) (detections anchors : List ℚ)
    (gridSizeW gridSizeH stride numBBoxes numOutputClasses netW netH : ℕ) :
    List NvDsInferParseObjectInfo :=
  (List.range gridSizeH).flatMap (fun y =>
    (List.range gridSizeW).flatMap (fun x =>
      (List.range numBBoxes).flatMap (fun b =>
        yoloV2Cell expF detections anchors gridSizeW gridSizeH stride
          numOutputClasses netW netH x y b)))

/-- Model of `NvDsInferLayerInfo` as read by this parser:
`inferDims.numDims`, `inferDims.d[1]` (grid height), `inferDims.d[2]`
(grid width), and the raw float buffer. -/
structure LayerInfo where
  numDims : ℕ
  d1 : ℕ
  d2 : ℕ
  buffer : List ℚ
deriving DecidableEq, Repr

/-- The comparison used by `SortLayers`: ascending `inferDims.d[1]`. -/
def layerLE (a b : LayerInfo) : Prop := a.d1 ≤ b.d1

instance : DecidableRel layerLE := fun a b =>
  inferInstanceAs (Decidable (a.d1 ≤ b.d1))

instance : IsTotal LayerInfo layerLE := ⟨fun a b => le_total a.d1 b.d1⟩

instance : IsTrans LayerInfo layerLE := ⟨fun _ _ _ h h2 => le_trans h h2⟩

/-- Model of `SortLayers` (lines 355-367): order the output layers by
ascending `inferDims.d[1]` (`std::sort` is unstable; modelled by the stable
insertion sort, one admissible outcome). -/
def SortLayers (outputLayersInfo : List LayerInfo) : List LayerInfo :=
  outputLayersInfo.insertionSort layerLE

/-- Result of one parser entry point: `none` models a fired `assert` (an
abort in a debug build; in a release build the `assert` vanishes and the
subsequent behaviour is outside this model); `some (ret, objs)` models the
function returning `ret` with `objectList` holding `objs`. -/
def ParseResult := Option (Bool × List NvDsInferParseObjectInfo)

/-- Per-mask loop of `NvDsInferParseYoloV3` (lines 397-410), including its
two `assert`s: the layer must be 3-dimensional, and the width-derived
stride must equal the height-derived stride. -/
def v3LayerLoop (net : NetworkInfo) (anchors : List ℚ) :
    List (LayerInfo × List ℕ) → Option (List NvDsInferParseObjectInfo)
  | [] => some []
  | (layer, mask) :: rest =>
    if layer.numDims ≠ 3 then none
    else
      if DIVUP net.width layer.d2 ≠ DIVUP net.height layer.d1 then none
      else
        (v3LayerLoop net anchors rest).map
          (fun objs =>
            decodeYoloV3Tensor layer.buffer mask anchors layer.d2 layer.d1
              (DIVUP net.width layer.d2) 3 80 net.width net.height ++ objs)

/-- Model of `NvDsInferParseYoloV3` (lines 369-416): sort the layers; when
the sorted layer count differs from the anchor-mask count, print an error
and return `false` leaving `objectList` untouched; otherwise decode every
layer (with `kNUM_BBOXES = 3` and the compiled-in 80 classes) and overwrite
`objectList` with the decoded objects. -/
def NvDsInferParseYoloV3 (outputLayersInfo : List LayerInfo)
    (networkInfo : NetworkInfo) (detectionParams : DetectionParams)
    (objectList : List NvDsInferParseObjectInfo)
    (anchors : List ℚ) (masks : List (List ℕ)) : ParseResult :=
  let sortedLayers := SortLayers outputLayersInfo
  if sortedLayers.length ≠ masks.length then some (false, objectList)
  else
    match v3LayerLoop networkInfo anchors (sortedLayers.zip masks) with
    | none => none
    | some objects => some (true, objects)

/-- The `kANCHORS` constant of `NvDsInferParseCustomYoloV3`. -/
def kANCHORS : List ℚ :=
  [10, 13, 16, 30, 33, 23, 30, 61, 62, 45, 59, 119, 116, 90, 156, 198, 373, 326]

/-- The `kMASKS` constant of `NvDsInferParseCustomYoloV3`. -/
def kMASKS : List (List ℕ) := [[6, 7, 8], [3, 4, 5], [0, 1, 2]]

/-- Model of the exported `NvDsInferParseCustomYoloV3` (lines 481-497). -/
def NvDsInferParseCustomYoloV3 (outputLayersInfo : List LayerInfo)
    (networkInfo : NetworkInfo) (detectionParams : DetectionParams)
    (objectList : List NvDsInferParseObjectInfo) : ParseResult :=
  NvDsInferParseYoloV3 outputLayersInfo networkInfo detectionParams
    objectList kANCHORS kMASKS

/-- The YoloV2 anchor table of `NvDsInferParseYoloV2` (lines 425-426),
as exact decimal rationals. -/
def yoloV2Anchors : List ℚ :=
  [0.57273, 0.677385, 1.87446, 2.06253, 3.33843,
   5.47434, 7.88282, 3.52778, 9.77052, 9.16828]

/-- Model of `NvDsInferParseYoloV2` (lines 418-457): fail (leaving
`objectList` untouched) when there is no output layer; assert the layer
shape and the stride agreement; scale the anchors by the stride; decode
with `kNUM_BBOXES = 5` and overwrite `objectList`.  `expF` abstracts the
C `exp` applied by the decoder. -/
def NvDsInferParseYoloV2 (expF : ℚ → ℚ) (outputLayersInfo : List LayerInfo)
    (networkInfo : NetworkInfo) (detectionParams : DetectionParams)
    (objectList : List NvDsInferParseObjectInfo) : ParseResult :=
  match outputLayersInfo with
  | [] => some (false, objectList)
  | layer :: _ =>
    if layer.numDims ≠ 3 then none
    else
      if DIVUP networkInfo.width layer.d2 ≠ DIVUP networkInfo.height layer.d1
      then none
      else
        some (true, decodeYoloV2Tensor expF layer.buffer
          (yoloV2Anchors.map (fun a => a * (DIVUP networkInfo.width layer.d2 : ℚ)))
          layer.d2 layer.d1 (DIVUP networkInfo.width layer.d2) 5 80
          networkInfo.width networkInfo.height)

/-- The conversion loop of `NvDsInferParseYoloV5` (lines 155-167): each
surviving `Detection` becomes an object record; `left`/`top` are clamped at
zero and cast to `unsigned int`, while `width`/`height` are cast directly
(fractional parts truncate, so zero-width or zero-height records are
possible; negative values are undefined behaviour in C++). -/
def yoloV5Convert (r : Detection) : NvDsInferParseObjectInfo :=
  { classId := ratToUint r.class_id,
    left := (ratToUint (max 0 (r.bbox.x - r.bbox.w * (1/2))) : ℚ),
    top := (ratToUint (max 0 (r.bbox.y - r.bbox.h * (1/2))) : ℚ),
    width := (ratToUint r.bbox.w : ℚ),
    height := (ratToUint r.bbox.h : ℚ),
    detectionConfidence := r.conf }

/-- Model of `NvDsInferParseYoloV5` (lines 137-170): run `nms` on the first
output layer's buffer with the compiled-in thresholds
(`CONF_THRESH = 0.4f`, `NMS_THRESH = 0.5`, modelled as the exact rationals
2/5 and 1/2) and append the converted results to `objectList`, which is
never cleared.  The call always returns `true`. -/
def NvDsInferParseYoloV5 (buf : YoloBuf) (networkInfo : NetworkInfo)
    (detectionParams : DetectionParams)
    (objectList : List NvDsInferParseObjectInfo) :
    Bool × List NvDsInferParseObjectInfo :=
  (true, objectList ++ (nms buf (2/5) (1/2)).map yoloV5Convert)

/-- Model of `NvDsInferParseYoloV4` (lines 173-207), identical in behaviour
to the V5 parser. -/
def NvDsInferParseYoloV4 (buf : YoloBuf) (networkInfo : NetworkInfo)
    (detectionParams : DetectionParams)
    (objectList : List NvDsInferParseObjectInfo) :
    Bool × List NvDsInferParseObjectInfo :=
  (true, objectList ++ (nms buf (2/5) (1/2)).map yoloV5Convert)

/-- The emission loop of `NvDsInferParseCustomYoloTLT` (lines 558-584),
iterating `i` while `i < keepCount[0]` (the countdown `n` starts at
`keepCount[0]`) and while `objectList.size() <= topK`.  The guards mirror
the C++ exactly; in particular the fourth coordinate `loc[3]` is compared
against the network WIDTH on line 570, and the score threshold `1.001f` is
modelled as the exact rational 1001/1000. -/
def tltLoop (net : NetworkInfo) (boxes scores cls : List ℚ) (topK : ℕ) :
    ℕ → ℕ → List NvDsInferParseObjectInfo → List NvDsInferParseObjectInfo
  | _, 0, objectList => objectList
  | i, n + 1, objectList =>
    if objectList.length ≤ topK then
      let l0 := boxes.getD (i * 4) 0
      let l1 := boxes.getD (i * 4 + 1) 0
      let l2 := boxes.getD (i * 4 + 2) 0
      let l3 := boxes.getD (i * 4 + 3) 0
      let conf0 := scores.getD i 0
      let cid := cls.getD i 0
      if conf0 > 1001/1000 then
        tltLoop net boxes scores cls topK (i + 1) n objectList
      else if l0 < 0 ∨ l1 < 0 ∨ l2 < 0 ∨ l3 < 0 then
        tltLoop net boxes scores cls topK (i + 1) n objectList
      else if l0 > (net.width : ℚ) ∨ l2 > (net.width : ℚ) ∨
          l1 > (net.height : ℚ) ∨ l3 > (net.width : ℚ) then
        tltLoop net boxes scores cls topK (i + 1) n objectList
      else if l2 < l0 ∨ l3 < l1 then
        tltLoop net boxes scores cls topK (i + 1) n objectList
      else if (l3 - l1) > (net.height : ℚ) ∨ (l2 - l0) > (net.width : ℚ) then
        tltLoop net boxes scores cls topK (i + 1) n objectList
      else
        tltLoop net boxes scores cls topK (i + 1) n (objectList ++
          [{ classId := ratToUint cid, left := l0, top := l1,
             width := l2 - l0, height := l3 - l1,
             detectionConfidence := conf0 }])
    else objectList

/-- Model of `NvDsInferParseCustomYoloTLT` (lines 537-587): require exactly
four output buffers (otherwise return `false` leaving `objectList`
untouched), then run the emission loop with `topK = 200`, appending to the
caller-supplied `objectList`.  The four buffers are passed as typed fields
(`keepCount` int buffer, flat `boxes` buffer with 4 floats per entry,
`scores` and class buffers); `numOutputLayers` stands for
`outputLayersInfo.size()`. -/
def NvDsInferParseCustomYoloTLT (numOutputLayers : ℕ) (keepCount : List ℤ)
    (boxes scores cls : List ℚ) (networkInfo : NetworkInfo)
    (objectList : List NvDsInferParseObjectInfo) :
    Bool × List NvDsInferParseObjectInfo :=
  if numOutputLayers ≠ 4 then (false, objectList)
  else
    (true, tltLoop networkInfo boxes scores cls 200 0
      (keepCount.getD 0 0).toNat objectList)

theorem getD_replicate_zero (n : ℕ) :
    ∀ i : ℕ, (List.replicate n (0:ℚ)).getD i 0 = 0 := by
  induction n with
  | zero => intro i; rfl
  | succ n ih =>
    intro i
    cases i with
    | zero => rfl
    | succ j => exact ih j

theorem tltLoop_length_le_topK (net : NetworkInfo) (boxes scores cls : List ℚ)
    (topK : ℕ) :
    ∀ (n i : ℕ) (acc : List NvDsInferParseObjectInfo),
      (tltLoop net boxes scores cls topK i n acc).length ≤
        max acc.length (topK + 1) := by
  intro n
  induction n with
  | zero => intro i acc; exact le_max_left _ _
  | succ n ih =>
    intro i acc
    by_cases hlen : acc.length ≤ topK
    · have hstep : ∀ obj, ((acc ++ [obj]).length) ≤ topK + 1 := by
        intro obj
        simp only [List.length_append, List.length_cons, List.length_nil]
        omega
      simp only [tltLoop, if_pos hlen]
      repeat' split
      all_goals
        refine le_trans (ih _ _) ?_
      all_goals
        try simp only [List.length_append, List.length_cons, List.length_nil]
      all_goals omega
    · simp only [tltLoop, if_neg hlen]
      exact le_max_left _ _

theorem tltLoop_length_le_count (net : NetworkInfo) (boxes scores cls : List ℚ)
    (topK : ℕ) :
    ∀ (n i : ℕ) (acc : List NvDsInferParseObjectInfo),
      (tltLoop net boxes scores cls topK i n acc).length ≤ acc.length + n := by
  intro n
  induction n with
  | zero => intro i acc; simp [tltLoop]
  | succ n ih =>
    intro i acc
    by_cases hlen : acc.length ≤ topK
    · simp only [tltLoop, if_pos hlen]
      repeat' split
      all_goals
        refine le_trans (ih _ _) ?_
      all_goals
        try simp only [List.length_append, List.length_cons, List.length_nil]
      all_goals omega
    · simp only [tltLoop, if_neg hlen]
      omega

/-- Claim C6 (amended): the proposal-passthrough decoder iterates while
`i < keepCount[0]` and while the accumulated list holds at most `topK = 200`
entries, so the final list length never exceeds
`max objectList.length (topK + 1)` nor `objectList.length + keepCount`:
starting from an empty list it emits at most `min keepCount (topK + 1) =
min keepCount 201` detections — one more than the claimed `topK` cap, and
an entry's index may exceed `topK` when earlier entries were rejected. -/
theorem tlt_length_bound (numOutputLayers : ℕ) (keepCount : List ℤ)
    (boxes scores cls : List ℚ) (net : NetworkInfo)
    (objectList : List NvDsInferParseObjectInfo) :
    (NvDsInferParseCustomYoloTLT numOutputLayers keepCount boxes scores cls
      net objectList).2.length ≤ max objectList.length 201 ∧
    (NvDsInferParseCustomYoloTLT numOutputLayers keepCount boxes scores cls
      net objectList).2.length ≤
        objectList.length + (keepCount.getD 0 0).toNat := by
  by_cases h : numOutputLayers ≠ 4
  · constructor <;> simp [NvDsInferParseCustomYoloTLT, if_pos h]
  · constructor <;> simp only [NvDsInferParseCustomYoloTLT, if_neg h]
    · exact tltLoop_length_le_topK net boxes scores cls 200 _ 0 objectList
    · exact tltLoop_length_le_count net boxes scores cls 200 _ 0 objectList

theorem tltLoop_zeros :
    ∀ (n i : ℕ) (acc : List NvDsInferParseObjectInfo),
      (tltLoop ⟨10, 10⟩ (List.replicate 808 (0:ℚ)) (List.replicate 202 (0:ℚ))
        (List.replicate 202 (0:ℚ)) 200 i n acc).length =
        acc.length + min n (201 - acc.length) := by
  intro n
  induction n with
  | zero => intro i acc; simp [tltLoop]
  | succ n ih =>
    intro i acc
    by_cases hlen : acc.length ≤ 200
    · simp only [tltLoop, if_pos hlen, getD_replicate_zero]
      norm_num
      rw [ih]
      simp only [List.length_append, List.length_cons, List.length_nil]
      omega
    · simp only [tltLoop, if_neg hlen]
      omega

/-- Claim C6 counterexample: with four output buffers, `keepCount[0] = 202`
and 202 entries that all pass every validity check (an all-zero box buffer
of the exact 808 floats the loop reads, all-zero scores and classes, so
every entry is a degenerate but accepted box), the decoder emits 201
detections — strictly more than `min(keepCount, topK) = min 202 200 = 200`,
because the loop condition `objectList.size() <= topK` still admits an
emission when the list already holds 200 entries. -/
theorem tlt_emits_beyond_topK :
    (NvDsInferParseCustomYoloTLT 4 [202] (List.replicate 808 (0:ℚ))
      (List.replicate 202 (0:ℚ)) (List.replicate 202 (0:ℚ)) ⟨10, 10⟩
      []).2.length = 201 ∧ 200 < 201 ∧ min 202 200 = 200 := by
  refine ⟨?_, by norm_num, by norm_num⟩
  have h : NvDsInferParseCustomYoloTLT 4 [202] (List.replicate 808 (0:ℚ))
      (List.replicate 202 (0:ℚ)) (List.replicate 202 (0:ℚ)) ⟨10, 10⟩ [] =
      (true, tltLoop ⟨10, 10⟩ (List.replicate 808 (0:ℚ))
        (List.replicate 202 (0:ℚ)) (List.replicate 202 (0:ℚ)) 200 0 202 []) := by
    simp only [NvDsInferParseCustomYoloTLT]
    norm_num [List.getD]
    congr 1
  rw [h, tltLoop_zeros]
  rfl

/-- Claim C4, failing input evaluated: with network resolution 416x200, the
entry `loc = (0, 150, 10, 300)` has its bottom edge `loc[3] = 300` beyond
the network height 200 — the claim says such an entry is rejected — yet it
passes every check, because line 570 compares `loc[3]` against the network
WIDTH (416) instead of the height, and the height-difference check only
sees `300 - 150 = 150 <= 200`.  The entry is emitted with top 150 and
height 150, so the emitted box reaches y = 300 > 200. -/
theorem tlt_bottom_checked_against_width :
    (NvDsInferParseCustomYoloTLT 4 [1] [0, 150, 10, 300] [7/10] [0]
      ⟨416, 200⟩ []).2 = [⟨0, 0, 150, 10, 150, 7/10⟩] ∧
    (300 : ℚ) > 200 ∧ (300 : ℚ) ≤ 416 := by
  refine ⟨by decide, by norm_num, by norm_num⟩

/-- Claim C5 counterexample: the proposal-passthrough decoder emits the
entry `loc = (5, 5, 5, 8)` with score `-1/2`: a detection with width
exactly 0 (not `> 0`) and confidence `-1/2` outside `[0, 1]`, refuting both
the strict-positivity and the confidence-range conjuncts of the claimed
invariant. -/
theorem tlt_emits_zero_width_and_negative_conf :
    (NvDsInferParseCustomYoloTLT 4 [1] [5, 5, 5, 8] [-1/2] [0] ⟨10, 10⟩
      []).2 = [⟨0, 5, 5, 0, 3, -1/2⟩] ∧
    ¬(0 < (⟨0, 5, 5, 0, 3, (-1/2 : ℚ)⟩ :
      NvDsInferParseObjectInfo).width) ∧
    (⟨0, 5, 5, 0, 3, (-1/2 : ℚ)⟩ :
      NvDsInferParseObjectInfo).detectionConfidence < 0 := by
  refine ⟨by decide, by decide, by decide⟩

/-- The box-field bounds maintained by the TLT emission loop for every entry
it appends. -/
def tltBoxOk (net : NetworkInfo) (o : NvDsInferParseObjectInfo) : Prop :=
  0 ≤ o.left ∧ o.left ≤ (net.width : ℚ) ∧
  0 ≤ o.top ∧ o.top ≤ (net.height : ℚ) ∧
  0 ≤ o.width ∧ o.width ≤ (net.width : ℚ) ∧
  0 ≤ o.height ∧ o.height ≤ (net.height : ℚ)

theorem tltLoop_emitted_bounds (net : NetworkInfo)
    (boxes scores cls : List ℚ) (topK : ℕ) :
    ∀ (n i : ℕ) (acc : List NvDsInferParseObjectInfo),
      (∀ o ∈ acc, tltBoxOk net o) →
      ∀ o ∈ tltLoop net boxes scores cls topK i n acc, tltBoxOk net o := by
  intro n
  induction n with
  | zero => intro i acc hacc; exact hacc
  | succ n ih =>
    intro i acc hacc
    by_cases hlen : acc.length ≤ topK
    · by_cases c1 : scores.getD i 0 > 1001/1000
      · simp only [tltLoop, if_pos hlen, if_pos c1]
        exact ih (i + 1) acc hacc
      · by_cases c2 : boxes.getD (i * 4) 0 < 0 ∨ boxes.getD (i * 4 + 1) 0 < 0 ∨
            boxes.getD (i * 4 + 2) 0 < 0 ∨ boxes.getD (i * 4 + 3) 0 < 0
        · simp only [tltLoop, if_pos hlen, if_neg c1, if_pos c2]
          exact ih (i + 1) acc hacc
        · by_cases c3 : boxes.getD (i * 4) 0 > (net.width : ℚ) ∨
              boxes.getD (i * 4 + 2) 0 > (net.width : ℚ) ∨
              boxes.getD (i * 4 + 1) 0 > (net.height : ℚ) ∨
              boxes.getD (i * 4 + 3) 0 > (net.width : ℚ)
          · simp only [tltLoop, if_pos hlen, if_neg c1, if_neg c2, if_pos c3]
            exact ih (i + 1) acc hacc
          · by_cases c4 : boxes.getD (i * 4 + 2) 0 < boxes.getD (i * 4) 0 ∨
                boxes.getD (i * 4 + 3) 0 < boxes.getD (i * 4 + 1) 0
            · simp only [tltLoop, if_pos hlen, if_neg c1, if_neg c2, if_neg c3,
                if_pos c4]
              exact ih (i + 1) acc hacc
            · by_cases c5 : boxes.getD (i * 4 + 3) 0 -
                  boxes.getD (i * 4 + 1) 0 > (net.height : ℚ) ∨
                  boxes.getD (i * 4 + 2) 0 - boxes.getD (i * 4) 0 >
                    (net.width : ℚ)
              · simp only [tltLoop, if_pos hlen, if_neg c1, if_neg c2,
                  if_neg c3, if_neg c4, if_pos c5]
                exact ih (i + 1) acc hacc
              · simp only [tltLoop, if_pos hlen, if_neg c1, if_neg c2,
                  if_neg c3, if_neg c4, if_neg c5]
                push_neg at c2 c3 c4 c5
                refine ih (i + 1) _ ?_
                intro o ho
                rcases List.mem_append.mp ho with ho | ho
                · exact hacc o ho
                · rcases List.mem_singleton.mp ho with rfl
                  refine ⟨c2.1, c3.1, c2.2.1, c3.2.2.1, ?_, c5.2, ?_, c5.1⟩
                  · show (0:ℚ) ≤ boxes.getD (i * 4 + 2) 0 - boxes.getD (i * 4) 0
                    linarith [c4.1]
                  · show (0:ℚ) ≤ boxes.getD (i * 4 + 3) 0 - boxes.getD (i * 4 + 1) 0
                    linarith [c4.2]
    · simp only [tltLoop, if_neg hlen]
      exact hacc

/-- Claim C5 (amended): every detection the proposal-passthrough decoder
emits into an initially empty list has its top-left corner inside
`[0, width] x [0, height]` and nonnegative width/height bounded by the
network resolution.  The original claim's strict positivity of width/height
and confidence range `[0, 1]` do NOT hold (see the counterexample), and the
grid-anchor path guarantees its own stronger bounds
(`decodeYoloV3Tensor_bounds`). -/
theorem tlt_emitted_bounds (numOutputLayers : ℕ) (keepCount : List ℤ)
    (boxes scores cls : List ℚ) (net : NetworkInfo)
    (o : NvDsInferParseObjectInfo)
    (ho : o ∈ (NvDsInferParseCustomYoloTLT numOutputLayers keepCount boxes
      scores cls net []).2) :
    0 ≤ o.left ∧ o.left ≤ (net.width : ℚ) ∧
    0 ≤ o.top ∧ o.top ≤ (net.height : ℚ) ∧
    0 ≤ o.width ∧ o.width ≤ (net.width : ℚ) ∧
    0 ≤ o.height ∧ o.height ≤ (net.height : ℚ) := by
  by_cases h : numOutputLayers ≠ 4
  · simp only [NvDsInferParseCustomYoloTLT, if_pos h] at ho
    exact absurd ho (List.not_mem_nil o)
  · simp only [NvDsInferParseCustomYoloTLT, if_neg h] at ho
    exact tltLoop_emitted_bounds net boxes scores cls 200 _ 0 []
      (fun o ho => absurd ho (List.not_mem_nil o)) o ho

/-- Witness for `tlt_emitted_bounds` at a concrete accepted entry. -/
theorem tlt_emitted_bounds_witness :
    ((⟨0, 5, 5, 0, 3, 1/2⟩ : NvDsInferParseObjectInfo) ∈
      (NvDsInferParseCustomYoloTLT 4 [1] [5, 5, 5, 8] [1/2] [0] ⟨10, 10⟩
        []).2) ∧
    (0 ≤ (⟨0, 5, 5, 0, 3, (1/2 : ℚ)⟩ : NvDsInferParseObjectInfo).left ∧
      (⟨0, 5, 5, 0, 3, (1/2 : ℚ)⟩ : NvDsInferParseObjectInfo).left ≤
        (((⟨10, 10⟩ : NetworkInfo).width : ℕ) : ℚ) ∧
      0 ≤ (⟨0, 5, 5, 0, 3, (1/2 : ℚ)⟩ : NvDsInferParseObjectInfo).top ∧
      (⟨0, 5, 5, 0, 3, (1/2 : ℚ)⟩ : NvDsInferParseObjectInfo).top ≤
        (((⟨10, 10⟩ : NetworkInfo).height : ℕ) : ℚ) ∧
      0 ≤ (⟨0, 5, 5, 0, 3, (1/2 : ℚ)⟩ : NvDsInferParseObjectInfo).width ∧
      (⟨0, 5, 5, 0, 3, (1/2 : ℚ)⟩ : NvDsInferParseObjectInfo).width ≤
        (((⟨10, 10⟩ : NetworkInfo).width : ℕ) : ℚ) ∧
      0 ≤ (⟨0, 5, 5, 0, 3, (1/2 : ℚ)⟩ : NvDsInferParseObjectInfo).height ∧
      (⟨0, 5, 5, 0, 3, (1/2 : ℚ)⟩ : NvDsInferParseObjectInfo).height ≤
        (((⟨10, 10⟩ : NetworkInfo).height : ℕ) : ℚ)) :=
  ⟨by decide,
    tlt_emitted_bounds 4 [1] [5, 5, 5, 8] [1/2] [0] ⟨10, 10⟩
      ⟨0, 5, 5, 0, 3, 1/2⟩ (by decide)⟩

/-- Claim C2 counterexample: a 1x1-grid, single-anchor, single-class layer
whose objectness is -1 and class score is 1 yields the raw confidence
`-1 * 1 = -1 < 0`, which the claim says is rejected — yet the decoder emits
the candidate (box 206..210 squared, width and height 4) with detection
confidence -1: `addBBoxProposal` performs no confidence check at all. -/
theorem decode_negative_conf_emitted :
    decodeYoloV3Tensor [1/2, 1/2, 2, 2, -1, 1] [0] [2, 2] 1 1 416 1 1
      416 416 = [⟨0, 206, 206, 4, 4, -1⟩] ∧
    (⟨0, 206, 206, 4, 4, (-1 : ℚ)⟩ :
      NvDsInferParseObjectInfo).detectionConfidence < 0 := by
  refine ⟨by decide, by decide⟩

theorem clamp_nonneg (v c : ℚ) (hc : 0 ≤ c) : 0 ≤ clamp v 0 c :=
  le_min hc (le_max_left 0 v)

theorem clamp_le_hi (v c : ℚ) : clamp v 0 c ≤ c := min_le_left _ _

theorem convertBBox_bounds (bx by_ bw bh : ℚ) (stride netW netH : ℕ) :
    0 ≤ (convertBBox bx by_ bw bh stride netW netH).left ∧
    (convertBBox bx by_ bw bh stride netW netH).left ≤ (netW : ℚ) ∧
    0 ≤ (convertBBox bx by_ bw bh stride netW netH).top ∧
    (convertBBox bx by_ bw bh stride netW netH).top ≤ (netH : ℚ) ∧
    0 ≤ (convertBBox bx by_ bw bh stride netW netH).width ∧
    (convertBBox bx by_ bw bh stride netW netH).width ≤ (netW : ℚ) ∧
    0 ≤ (convertBBox bx by_ bw bh stride netW netH).height ∧
    (convertBBox bx by_ bw bh stride netW netH).height ≤ (netH : ℚ) :=
  ⟨clamp_nonneg _ _ (Nat.cast_nonneg _), clamp_le_hi _ _,
    clamp_nonneg _ _ (Nat.cast_nonneg _), clamp_le_hi _ _,
    clamp_nonneg _ _ (Nat.cast_nonneg _), clamp_le_hi _ _,
    clamp_nonneg _ _ (Nat.cast_nonneg _), clamp_le_hi _ _⟩

theorem addBBoxProposal_mem (bx by_ bw bh : ℚ) (stride netW netH : ℕ)
    (maxIndex : ℤ) (maxProb : ℚ) (acc : List NvDsInferParseObjectInfo)
    (o : NvDsInferParseObjectInfo)
    (ho : o ∈ addBBoxProposal bx by_ bw bh stride netW netH maxIndex maxProb
      acc) :
    o ∈ acc ∨
      (1 ≤ o.width ∧ o.width ≤ (netW : ℚ) ∧ 1 ≤ o.height ∧
        o.height ≤ (netH : ℚ) ∧ 0 ≤ o.left ∧ o.left ≤ (netW : ℚ) ∧
        0 ≤ o.top ∧ o.top ≤ (netH : ℚ)) := by
  by_cases hg : (convertBBox bx by_ bw bh stride netW netH).width < 1 ∨
      (convertBBox bx by_ bw bh stride netW netH).height < 1
  · simp only [addBBoxProposal, if_pos hg] at ho
    exact Or.inl ho
  · simp only [addBBoxProposal, if_neg hg] at ho
    rcases List.mem_append.mp ho with ho | ho
    · exact Or.inl ho
    · rcases List.mem_singleton.mp ho with rfl
      push_neg at hg
      rcases convertBBox_bounds bx by_ bw bh stride netW netH with
        ⟨h1, h2, h3, h4, _, h6, _, h8⟩
      exact Or.inr ⟨hg.1, h6, hg.2, h8, h1, h2, h3, h4⟩

/-- Claim C2 (amended): every candidate emitted by the grid-anchor decoder
has all box edges clamped into `[0, networkWidth] x [0, networkHeight]`
(left/top within bounds, width/height at most the network resolution) and
clamped width and height at least 1 pixel (smaller boxes are discarded);
however, no raw-confidence check is performed — candidates whose raw
confidence is negative are emitted, not rejected (see the
counterexample). -/
theorem decodeYoloV3Tensor_bounds (detections : List ℚ) (mask : List ℕ)
    (anchors : List ℚ)
    (gridW gridH stride numBBoxes numClasses netW netH : ℕ)
    (o : NvDsInferParseObjectInfo)
    (ho : o ∈ decodeYoloV3Tensor detections mask anchors gridW gridH stride
      numBBoxes numClasses netW netH) :
    1 ≤ o.width ∧ o.width ≤ (netW : ℚ) ∧ 1 ≤ o.height ∧
    o.height ≤ (netH : ℚ) ∧ 0 ≤ o.left ∧ o.left ≤ (netW : ℚ) ∧
    0 ≤ o.top ∧ o.top ≤ (netH : ℚ) := by
  rcases List.mem_flatMap.mp ho with ⟨y, _, ho⟩
  rcases List.mem_flatMap.mp ho with ⟨x, _, ho⟩
  rcases List.mem_flatMap.mp ho with ⟨b, _, ho⟩
  simp only [yoloV3Cell] at ho
  rcases addBBoxProposal_mem _ _ _ _ _ _ _ _ _ _ o ho with h | h
  · exact absurd h (List.not_mem_nil o)
  · exact h

/-- Witness for `decodeYoloV3Tensor_bounds` at a concrete emitted
candidate. -/
theorem decodeYoloV3Tensor_bounds_witness :
    ((⟨0, 206, 206, 4, 4, 1⟩ : NvDsInferParseObjectInfo) ∈
      decodeYoloV3Tensor [1/2, 1/2, 2, 2, 1, 1] [0] [2, 2] 1 1 416 1 1
        416 416) ∧
    (1 ≤ (⟨0, 206, 206, 4, 4, (1:ℚ)⟩ : NvDsInferParseObjectInfo).width ∧
      (⟨0, 206, 206, 4, 4, (1:ℚ)⟩ : NvDsInferParseObjectInfo).width ≤
        ((416 : ℕ) : ℚ) ∧
      1 ≤ (⟨0, 206, 206, 4, 4, (1:ℚ)⟩ : NvDsInferParseObjectInfo).height ∧
      (⟨0, 206, 206, 4, 4, (1:ℚ)⟩ : NvDsInferParseObjectInfo).height ≤
        ((416 : ℕ) : ℚ) ∧
      0 ≤ (⟨0, 206, 206, 4, 4, (1:ℚ)⟩ : NvDsInferParseObjectInfo).left ∧
      (⟨0, 206, 206, 4, 4, (1:ℚ)⟩ : NvDsInferParseObjectInfo).left ≤
        ((416 : ℕ) : ℚ) ∧
      0 ≤ (⟨0, 206, 206, 4, 4, (1:ℚ)⟩ : NvDsInferParseObjectInfo).top ∧
      (⟨0, 206, 206, 4, 4, (1:ℚ)⟩ : NvDsInferParseObjectInfo).top ≤
        ((416 : ℕ) : ℚ)) :=
  ⟨by decide,
    decodeYoloV3Tensor_bounds [1/2, 1/2, 2, 2, 1, 1] [0] [2, 2] 1 1 416 1 1
      416 416 ⟨0, 206, 206, 4, 4, 1⟩ (by decide)⟩

/-- Claim C3 (amended): a mismatch between the number of (sorted) output
layers and the number of anchor-mask groups makes `NvDsInferParseYoloV3`
return a decode failure (`false`) and emit nothing — `objectList` is left
exactly as supplied.  A stride disagreement, in contrast, is only guarded
by an `assert` (see the counterexample), not by a failure return. -/
theorem v3_layer_mask_mismatch_fails (outputLayersInfo : List LayerInfo)
    (networkInfo : NetworkInfo) (detectionParams : DetectionParams)
    (objectList : List NvDsInferParseObjectInfo)
    (anchors : List ℚ) (masks : List (List ℕ))
    (h : outputLayersInfo.length ≠ masks.length) :
    NvDsInferParseYoloV3 outputLayersInfo networkInfo detectionParams
      objectList anchors masks = some (false, objectList) := by
  have hlen : (SortLayers outputLayersInfo).length = outputLayersInfo.length :=
    (List.perm_insertionSort layerLE outputLayersInfo).length_eq
  simp only [NvDsInferParseYoloV3, hlen, if_pos h]

/-- Witness for `v3_layer_mask_mismatch_fails`: zero layers against the
three mask groups of `NvDsInferParseCustomYoloV3`, with one pre-existing
object. -/
theorem v3_layer_mask_mismatch_fails_witness :
    ([] : List LayerInfo).length ≠ kMASKS.length ∧
    NvDsInferParseYoloV3 [] ⟨416, 416⟩ ⟨80⟩ [⟨7, 1, 2, 3, 4, 1⟩] kANCHORS
      kMASKS = some (false, [⟨7, 1, 2, 3, 4, 1⟩]) :=
  ⟨by decide,
    v3_layer_mask_mismatch_fails [] ⟨416, 416⟩ ⟨80⟩ [⟨7, 1, 2, 3, 4, 1⟩]
      kANCHORS kMASKS (by decide)⟩

/-- Claim C3 counterexample: a single 3-dimensional layer with a 26x13 grid
against a 416x416 network gives a width-derived stride of 32 but a
height-derived stride of 16; the layer count (1) matches the mask count
(1), so the claim says the call must return decode failure with zero
detections — instead the stride disagreement fires the `assert` on line
404 (modelled as `none`): the call aborts in a debug build (and in a
release build the assert vanishes and the width-derived stride is silently
used), and in particular it does NOT return the failure value. -/
theorem v3_stride_mismatch_aborts :
    NvDsInferParseYoloV3 [⟨3, 26, 13, []⟩] ⟨416, 416⟩ ⟨80⟩ [] kANCHORS
      [[0, 1, 2]] = none ∧
    DIVUP 416 13 = 32 ∧ DIVUP 416 26 = 16 ∧
    ∀ objs : List NvDsInferParseObjectInfo,
      (none : Option (Bool × List NvDsInferParseObjectInfo)) ≠
        some (false, objs) := by
  refine ⟨rfl, rfl, rfl, ?_⟩
  intro objs h
  exact Option.noConfusion h

theorem tltLoop_append (net : NetworkInfo) (boxes scores cls : List ℚ)
    (topK : ℕ) :
    ∀ (n i : ℕ) (acc : List NvDsInferParseObjectInfo),
      ∃ tail, tltLoop net boxes scores cls topK i n acc = acc ++ tail := by
  intro n
  induction n with
  | zero => intro i acc; exact ⟨[], by simp [tltLoop]⟩
  | succ n ih =>
    intro i acc
    by_cases hlen : acc.length ≤ topK
    · have key : ∀ acc2 : List NvDsInferParseObjectInfo,
          (∃ t, acc2 = acc ++ t) →
          ∃ tail, tltLoop net boxes scores cls topK (i + 1) n acc2 =
            acc ++ tail := by
        rintro acc2 ⟨t, rfl⟩
        rcases ih (i + 1) (acc ++ t) with ⟨t2, ht2⟩
        exact ⟨t ++ t2, by rw [ht2, List.append_assoc]⟩
      simp only [tltLoop, if_pos hlen]
      repeat' split
      all_goals
        first
          | exact key acc ⟨[], by simp⟩
          | exact key _ ⟨_, rfl⟩
    · exact ⟨[], by simp [tltLoop, if_neg hlen]⟩

theorem v3_success_independent_of_objectList (outputLayersInfo : List LayerInfo)
    (networkInfo : NetworkInfo) (detectionParams : DetectionParams)
    (anchors : List ℚ) (masks : List (List ℕ))
    (objectList L : List NvDsInferParseObjectInfo)
    (h : NvDsInferParseYoloV3 outputLayersInfo networkInfo detectionParams
      objectList anchors masks = some (true, L)) :
    NvDsInferParseYoloV3 outputLayersInfo networkInfo detectionParams
      [] anchors masks = some (true, L) := by
  by_cases hg : (SortLayers outputLayersInfo).length ≠ masks.length
  · simp only [NvDsInferParseYoloV3, if_pos hg] at h
    injection h with h2
    injection h2 with hb hl
    exact Bool.noConfusion hb
  · simp only [NvDsInferParseYoloV3, if_neg hg] at h ⊢
    cases hloop : v3LayerLoop networkInfo anchors
        ((SortLayers outputLayersInfo).zip masks) with
    | none => rw [hloop] at h; exact Option.noConfusion h
    | some objs => rw [hloop] at h; exact h

theorem v2_success_independent_of_objectList (expF : ℚ → ℚ)
    (outputLayersInfo : List LayerInfo) (networkInfo : NetworkInfo)
    (detectionParams : DetectionParams)
    (objectList L : List NvDsInferParseObjectInfo)
    (h : NvDsInferParseYoloV2 expF outputLayersInfo networkInfo
      detectionParams objectList = some (true, L)) :
    NvDsInferParseYoloV2 expF outputLayersInfo networkInfo detectionParams
      [] = some (true, L) := by
  cases outputLayersInfo with
  | nil =>
    simp only [NvDsInferParseYoloV2] at h
    injection h with h2
    injection h2 with hb hl
    exact Bool.noConfusion hb
  | cons layer rest =>
    by_cases h1 : layer.numDims ≠ 3
    · simp only [NvDsInferParseYoloV2, if_pos h1] at h
      exact Option.noConfusion h
    · by_cases h2 : DIVUP networkInfo.width layer.d2 ≠
          DIVUP networkInfo.height layer.d1
      · simp only [NvDsInferParseYoloV2, if_neg h1, if_pos h2] at h
        exact Option.noConfusion h
      · simp only [NvDsInferParseYoloV2, if_neg h1, if_neg h2] at h ⊢
        exact h

/-- Claim C10 (amended): the YoloV5/YoloV4 and TLT entry points append
their detections to the caller-supplied `objectList` without clearing it —
pre-existing entries survive and, for the TLT decoder, count toward its
size cap (a list already longer than `topK` suppresses all emission) —
whereas the YoloV3 and YoloV2 entry points, WHEN DECODING SUCCEEDS,
overwrite `objectList` and discard pre-existing entries (a failing call
leaves the pre-existing entries untouched, see the counterexample). -/
theorem parser_frame_effects :
    (∀ (buf : YoloBuf) (net : NetworkInfo) (params : DetectionParams)
        (objectList : List NvDsInferParseObjectInfo),
      (NvDsInferParseYoloV5 buf net params objectList).2 =
        objectList ++ (NvDsInferParseYoloV5 buf net params []).2) ∧
    (∀ (buf : YoloBuf) (net : NetworkInfo) (params : DetectionParams)
        (objectList : List NvDsInferParseObjectInfo),
      (NvDsInferParseYoloV4 buf net params objectList).2 =
        objectList ++ (NvDsInferParseYoloV4 buf net params []).2) ∧
    (∀ (nl : ℕ) (keep : List ℤ) (boxes scores cls : List ℚ)
        (net : NetworkInfo) (objectList : List NvDsInferParseObjectInfo),
      ∃ tail, (NvDsInferParseCustomYoloTLT nl keep boxes scores cls net
        objectList).2 = objectList ++ tail) ∧
    (∀ (nl : ℕ) (keep : List ℤ) (boxes scores cls : List ℚ)
        (net : NetworkInfo) (objectList : List NvDsInferParseObjectInfo),
      200 < objectList.length →
      (NvDsInferParseCustomYoloTLT nl keep boxes scores cls net
        objectList).2 = objectList) ∧
    (∀ (layers : List LayerInfo) (net : NetworkInfo)
        (params : DetectionParams) (anchors : List ℚ)
        (masks : List (List ℕ))
        (objectList L : List NvDsInferParseObjectInfo),
      NvDsInferParseYoloV3 layers net params objectList anchors masks =
        some (true, L) →
      NvDsInferParseYoloV3 layers net params [] anchors masks =
        some (true, L)) ∧
    (∀ (expF : ℚ → ℚ) (layers : List LayerInfo) (net : NetworkInfo)
        (params : DetectionParams)
        (objectList L : List NvDsInferParseObjectInfo),
      NvDsInferParseYoloV2 expF layers net params objectList =
        some (true, L) →
      NvDsInferParseYoloV2 expF layers net params [] = some (true, L)) := by
  refine ⟨?_, ?_, ?_, ?_, ?_, ?_⟩
  · intro buf net params objectList
    simp [NvDsInferParseYoloV5]
  · intro buf net params objectList
    simp [NvDsInferParseYoloV4]
  · intro nl keep boxes scores cls net objectList
    by_cases h : nl ≠ 4
    · exact ⟨[], by simp [NvDsInferParseCustomYoloTLT, if_pos h]⟩
    · simp only [NvDsInferParseCustomYoloTLT, if_neg h]
      exact tltLoop_append net boxes scores cls 200 _ 0 objectList
  · intro nl keep boxes scores cls net objectList hlong
    by_cases h : nl ≠ 4
    · simp [NvDsInferParseCustomYoloTLT, if_pos h]
    · simp only [NvDsInferParseCustomYoloTLT, if_neg h]
      cases hk : (keep.getD 0 0).toNat with
      | zero => rfl
      | succ n =>
        have : ¬(objectList.length ≤ 200) := by omega
        simp [tltLoop, if_neg this]
  · intro layers net params anchors masks objectList L h
    exact v3_success_independent_of_objectList layers net params anchors
      masks objectList L h
  · intro expF layers net params objectList L h
    exact v2_success_independent_of_objectList expF layers net params
      objectList L h

/-- Claim C10 counterexample: a YoloV3 call whose layer/mask counts
mismatch returns `false` and leaves the non-empty pre-existing
`objectList` exactly as it was — the pre-existing entries are NOT
discarded, so the unconditional "V3 overwrites `objectList`" reading of
the claim is false for failing calls. -/
theorem v3_failure_preserves_objectList :
    NvDsInferParseYoloV3 [] ⟨416, 416⟩ ⟨80⟩ [⟨9, 5, 6, 7, 8, 1⟩] kANCHORS
      kMASKS = some (false, [⟨9, 5, 6, 7, 8, 1⟩]) ∧
    ([⟨9, 5, 6, 7, 8, 1⟩] : List NvDsInferParseObjectInfo) ≠ [] := by
  refine ⟨rfl, by decide⟩

/-- Witness for `parser_frame_effects` at concrete inputs: a V5/V4 call, a
TLT call with one accepted entry, a TLT call whose pre-existing list
already exceeds the cap, and a successful V3 and V2 decode (one empty
3-dimensional 1x1 layer; every candidate box degenerates to width 0 and is
discarded, so the decode succeeds with an empty result overwriting the
pre-existing entry). -/
theorem parser_frame_effects_witness :
    ((NvDsInferParseYoloV5 ⟨0, []⟩ ⟨416, 416⟩ ⟨80⟩ [⟨1, 0, 0, 2, 2, 1⟩]).2 =
      [⟨1, 0, 0, 2, 2, 1⟩] ++
        (NvDsInferParseYoloV5 ⟨0, []⟩ ⟨416, 416⟩ ⟨80⟩ []).2) ∧
    ((NvDsInferParseYoloV4 ⟨0, []⟩ ⟨416, 416⟩ ⟨80⟩ [⟨1, 0, 0, 2, 2, 1⟩]).2 =
      [⟨1, 0, 0, 2, 2, 1⟩] ++
        (NvDsInferParseYoloV4 ⟨0, []⟩ ⟨416, 416⟩ ⟨80⟩ []).2) ∧
    (∃ tail, (NvDsInferParseCustomYoloTLT 4 [1] [5, 5, 5, 8] [1/2] [0]
      ⟨10, 10⟩ [⟨1, 0, 0, 2, 2, 1⟩]).2 = [⟨1, 0, 0, 2, 2, 1⟩] ++ tail) ∧
    (200 < (List.replicate 201
        (⟨1, 0, 0, 2, 2, 1⟩ : NvDsInferParseObjectInfo)).length ∧
      (NvDsInferParseCustomYoloTLT 4 [1] [5, 5, 5, 8] [1/2] [0] ⟨10, 10⟩
        (List.replicate 201 ⟨1, 0, 0, 2, 2, 1⟩)).2 =
          List.replicate 201 ⟨1, 0, 0, 2, 2, 1⟩) ∧
    (NvDsInferParseYoloV3 [⟨3, 1, 1, []⟩] ⟨416, 416⟩ ⟨80⟩
        [⟨1, 0, 0, 2, 2, 1⟩] kANCHORS [[0, 1, 2]] = some (true, []) ∧
      NvDsInferParseYoloV3 [⟨3, 1, 1, []⟩] ⟨416, 416⟩ ⟨80⟩ [] kANCHORS
        [[0, 1, 2]] = some (true, [])) ∧
    (NvDsInferParseYoloV2 (fun q => q) [⟨3, 1, 1, []⟩] ⟨416, 416⟩ ⟨80⟩
        [⟨1, 0, 0, 2, 2, 1⟩] = some (true, []) ∧
      NvDsInferParseYoloV2 (fun q => q) [⟨3, 1, 1, []⟩] ⟨416, 416⟩ ⟨80⟩ [] =
        some (true, [])) := by
  have hV3 : NvDsInferParseYoloV3 [⟨3, 1, 1, []⟩] ⟨416, 416⟩ ⟨80⟩
      [⟨1, 0, 0, 2, 2, 1⟩] kANCHORS [[0, 1, 2]] = some (true, []) := by rfl
  have hV2 : NvDsInferParseYoloV2 (fun q => q) [⟨3, 1, 1, []⟩] ⟨416, 416⟩
      ⟨80⟩ [⟨1, 0, 0, 2, 2, 1⟩] = some (true, []) := by rfl
  have hlong : 200 < (List.replicate 201
      (⟨1, 0, 0, 2, 2, 1⟩ : NvDsInferParseObjectInfo)).length := by
    rw [List.length_replicate]
    omega
  exact ⟨parser_frame_effects.1 _ _ _ _, parser_frame_effects.2.1 _ _ _ _,
    parser_frame_effects.2.2.1 _ _ _ _ _ _ _,
    ⟨hlong, parser_frame_effects.2.2.2.1 _ _ _ _ _ _ _ hlong⟩,
    ⟨hV3, parser_frame_effects.2.2.2.2.1 _ _ _ _ _ _ _ hV3⟩,
    ⟨hV2, parser_frame_effects.2.2.2.2.2 _ _ _ _ _ _ hV2⟩⟩
